import Mathlib

/-!
# Verification of the cross-wordle board validation engine

This file gives a shallow embedding, in Lean 4, of the board validation
engine of the cross-wordle repository (`src/utils/solver.ts` together with
the `requestFinish` handler of `src/hooks/useGame.ts`), and proves the
behavioural properties claimed by the specification.

Modelling conventions:
* JavaScript strings are modelled as `List Char`; `toLowerCase` becomes
  `List.map Char.toLower`.
* A JS `Set` of object references is modelled by reference identity:
  tiles are identified by their grid coordinates (distinct tiles of a
  well-formed grid carry distinct coordinates), letters by their unique
  `id` field, so a `Set` of letters becomes `List.dedup` over ids and the
  visited `Set` of tiles becomes a duplicate-free list of coordinates.
* JS in-place updates of the freshly copied grid are modelled by
  `List.modify`; out-of-range indices leave the list unchanged, which
  coincides with the source on every index it actually uses.
* The dictionary is an external collaborator and is passed as a
  membership predicate `List Char → Bool`.
-/

/-- The per-tile correctness state (`TileState` of `game.ts`). -/
inductive TileState where
  | IDLE
  | VALID
  | INVALID
  | MIXED
deriving DecidableEq, Repr

/-- A letter occupant: stable unique id plus a single character value. -/
structure Letter where
  id : Nat
  letter : Char
deriving DecidableEq, Repr

/-- A grid tile: stable id, coordinates, optional letter, correctness state. -/
structure Tile where
  id : Nat
  row : Nat
  col : Nat
  letter : Option Letter
  state : TileState
deriving DecidableEq, Repr

/-- The board: a cursor (opaque to the validator, passed through) and the
tile matrix. -/
structure Board where
  cursor : Nat × Nat
  tiles : List (List Tile)
deriving DecidableEq, Repr

/-- Orientation of an extracted candidate word. -/
inductive WordDirection where
  | LeftToRight
  | TopToBottom
deriving DecidableEq, Repr

/-- A candidate word: its text, the coordinates of its first letter and
its orientation (`WordFromTile` of `solver.ts`). -/
structure WordFromTile where
  word : List Char
  row : Nat
  col : Nat
  direction : WordDirection
deriving DecidableEq, Repr

/-- The tile stored at matrix position `(r, c)`, if any. -/
def tileAt (tiles : List (List Tile)) (r c : Nat) : Option Tile :=
  (tiles.getD r []).get? c

/-- Does the tile at `(r, c)` exist and bear a letter
(`tile.letter !== null` in the source)? -/
def occupiedAt (tiles : List (List Tile)) (r c : Nat) : Bool :=
  match tileAt tiles r c with
  | some t => t.letter.isSome
  | none => false

/-- `countFilledTiles` of `solver.ts`: the size of the JS `Set` of all
non-null letter references on the board, i.e. the number of distinct
letter ids among occupied tiles. -/
def countFilledTiles (tiles : List (List Tile)) : Nat :=
  ((((tiles.map (List.map Tile.letter)).flatten).filterMap id).map Letter.id).dedup.length

/-- `countValidTiles` of `solver.ts`: the size of the JS `Set` of ids of
tiles whose state is `VALID` or `MIXED`. -/
def countValidTiles (tiles : List (List Tile)) : Nat :=
  ((tiles.map fun row =>
      (row.filter fun t => t.state == TileState.VALID || t.state == TileState.MIXED).map
        Tile.id).flatten).dedup.length

/-- `countLettersOnBoard` of `solver.ts`. -/
def countLettersOnBoard (board : Board) : Nat :=
  countFilledTiles board.tiles

/-- `countValidLettersOnBoard` of `solver.ts`. -/
def countValidLettersOnBoard (board : Board) : Nat :=
  countValidTiles board.tiles

/-- `findAnyTile` of `solver.ts`: the first tile bearing a letter, in
row-major scan order. -/
def findAnyTile (tiles : List (List Tile)) : Option Tile :=
  tiles.flatten.find? fun t => t.letter.isSome

/-- One guarded recursive visit of `markTilesDFS` (the body of each of the
four neighbour blocks): recurse on `q` when the bound guard holds, `q`
bears a letter and `q` is unvisited; otherwise keep the visited set. -/
def markTilesDFS (tiles : List (List Tile)) (maxRow maxCol : Nat) :
    Nat → List (Nat × Nat) → Nat × Nat → List (Nat × Nat)
  | 0, visited, _ => visited
  | fuel + 1, visited, p =>
    if p ∈ visited then visited
    else
      let v0 := p :: visited
      let v1 :=
        if 0 < p.1 ∧ occupiedAt tiles (p.1 - 1) p.2 = true ∧ (p.1 - 1, p.2) ∉ v0 then
          markTilesDFS tiles maxRow maxCol fuel v0 (p.1 - 1, p.2)
        else v0
      let v2 :=
        if 0 < p.2 ∧ occupiedAt tiles p.1 (p.2 - 1) = true ∧ (p.1, p.2 - 1) ∉ v1 then
          markTilesDFS tiles maxRow maxCol fuel v1 (p.1, p.2 - 1)
        else v1
      let v3 :=
        if p.1 < maxRow - 1 ∧ occupiedAt tiles (p.1 + 1) p.2 = true ∧ (p.1 + 1, p.2) ∉ v2 then
          markTilesDFS tiles maxRow maxCol fuel v2 (p.1 + 1, p.2)
        else v2
      let v4 :=
        if p.2 < maxCol - 1 ∧ occupiedAt tiles p.1 (p.2 + 1) = true ∧ (p.1, p.2 + 1) ∉ v3 then
          markTilesDFS tiles maxRow maxCol fuel v3 (p.1, p.2 + 1)
        else v3
      v4

/-- `validateWordIsland` of `solver.ts`: count occupied tiles, depth-first
traverse 4-directional neighbours from the first occupied tile, and
compare the visited count with the total.  The JS recursion needs no fuel
(the visited set grows on every call); `maxRow * maxCol + 1` is enough
fuel for the traversal to run to completion (proved below). -/
def validateWordIsland (board : Board) : Bool :=
  let tiles := board.tiles
  let maxRow := tiles.length
  let maxCol := (tiles.headD []).length
  let total := countFilledTiles tiles
  match findAnyTile tiles with
  | none => false
  | some t =>
    let visited := markTilesDFS tiles maxRow maxCol (maxRow * maxCol + 1) [] (t.row, t.col)
    visited.length == total

/-- The cell-by-cell scanning loop shared by `getWordsFromTilesLTR` and
`getWordsFromTilesTTB`: start a buffer at an occupied cell, extend it over
consecutive occupied cells, emit it at an empty cell, flush it at line
end.  The JS `words` array accumulated by `push` is rendered as the
returned list, in emission order. -/
def scanLine (d : WordDirection) : Option WordFromTile → List Tile → List WordFromTile
  | some cur, [] => [cur]
  | none, [] => []
  | none, t :: ts =>
    match t.letter with
    | some l => scanLine d (some ⟨[l.letter], t.row, t.col, d⟩) ts
    | none => scanLine d none ts
  | some cur, t :: ts =>
    match t.letter with
    | some l => scanLine d (some { cur with word := cur.word ++ [l.letter] }) ts
    | none => cur :: scanLine d none ts

/-- `getWordsFromTilesLTR` of `solver.ts`: scan each row left to right,
drop single-letter runs, lowercase the words. -/
def getWordsFromTilesLTR (tiles : List (List Tile)) : List WordFromTile :=
  (((tiles.map (scanLine WordDirection.LeftToRight none)).flatten).filter
      fun w => w.word.length > 1).map
    fun w => { w with word := w.word.map Char.toLower }

/-- The `c`-th column of the tile matrix (`tiles[r][c]` for each `r`). -/
def columnTiles (tiles : List (List Tile)) (c : Nat) : List Tile :=
  tiles.filterMap fun row => row.get? c

/-- `getWordsFromTilesTTB` of `solver.ts`: scan each column top to bottom,
drop single-letter runs, lowercase the words. -/
def getWordsFromTilesTTB (tiles : List (List Tile)) : List WordFromTile :=
  ((((List.range (tiles.headD []).length).map fun c =>
        scanLine WordDirection.TopToBottom none (columnTiles tiles c)).flatten).filter
      fun w => w.word.length > 1).map
    fun w => { w with word := w.word.map Char.toLower }

/-- All candidate words of the board: row-wise results first, then
column-wise (`foundWords` of `validateBoard`). -/
def foundWords (tiles : List (List Tile)) : List WordFromTile :=
  getWordsFromTilesLTR tiles ++ getWordsFromTilesTTB tiles

/-- The state-initialisation step of `validateBoard`: a lettered tile
starts `INVALID`, an empty tile starts `IDLE`; all other fields are kept. -/
def initTile (t : Tile) : Tile :=
  match t.letter with
  | some _ => { t with state := TileState.INVALID }
  | none => { t with state := TileState.IDLE }

/-- Overwrite the state of the tile at `(r, c)` (`tile.state = st` on the
copied grid). -/
def setTileState (st : TileState) (r c : Nat) (tiles : List (List Tile)) :
    List (List Tile) :=
  List.modify (fun row => List.modify (fun t => { t with state := st }) c row) r tiles

/-- The demotion write of Pass B: a `VALID` tile becomes `INVALID`, any
other tile is left untouched. -/
def demoteTileState (r c : Nat) (tiles : List (List Tile)) : List (List Tile) :=
  List.modify
    (fun row =>
      List.modify
        (fun t => if t.state = TileState.VALID then { t with state := TileState.INVALID } else t)
        c row)
    r tiles

/-- Pass A body of `validateBoard` for one dictionary word: mark every
spanned tile `VALID`; for a column-wise word, a row index beyond
`gridBounds - 1` is silently skipped (the comparison is on JS numbers,
hence the cast to `Int`). -/
def markWordValid (gridBounds : Nat) (tiles : List (List Tile)) (w : WordFromTile) :
    List (List Tile) :=
  match w.direction with
  | WordDirection.LeftToRight =>
    (List.range w.word.length).foldl
      (fun ts c => setTileState TileState.VALID w.row (w.col + c) ts) tiles
  | WordDirection.TopToBottom =>
    (List.range w.word.length).foldl
      (fun ts r =>
        if ((w.row + r : Nat) : Int) > (gridBounds : Int) - 1 then ts
        else setTileState TileState.VALID (w.row + r) w.col ts)
      tiles

/-- Pass B body of `validateBoard` for one non-dictionary word: demote
every spanned `VALID` tile to `INVALID`, with the same bound guard on
column-wise words. -/
def demoteWordInvalid (gridBounds : Nat) (tiles : List (List Tile)) (w : WordFromTile) :
    List (List Tile) :=
  match w.direction with
  | WordDirection.LeftToRight =>
    (List.range w.word.length).foldl
      (fun ts c => demoteTileState w.row (w.col + c) ts) tiles
  | WordDirection.TopToBottom =>
    (List.range w.word.length).foldl
      (fun ts r =>
        if ((w.row + r : Nat) : Int) > (gridBounds : Int) - 1 then ts
        else demoteTileState (w.row + r) w.col ts)
      tiles

/-- `validateBoard` of `solver.ts`: extract the candidate words of both
orientations, compute the overall boolean over the full list, initialise
all tile states, run Pass A over the dictionary words, then Pass B over
the non-dictionary words, and return the annotated board with the
boolean. -/
def validateBoard (dict : List Char → Bool) (board : Board) : Board × Bool :=
  let tiles := board.tiles
  let gridBounds := tiles.length
  let leftToRight := getWordsFromTilesLTR tiles
  let topToBottom := getWordsFromTilesTTB tiles
  let allFound := leftToRight ++ topToBottom
  let allWordsAreValid := allFound.all fun w => dict w.word
  let initialTiles := tiles.map (List.map initTile)
  let pass1 := (allFound.filter fun w => dict w.word).foldl (markWordValid gridBounds) initialTiles
  let pass2 :=
    (allFound.filter fun w => !dict w.word).foldl (demoteWordInvalid gridBounds) pass1
  (⟨board.cursor, pass2⟩, allWordsAreValid)

/-- `requestFinish` of `useGame.ts`, as its effect on the board state: the
connectivity check gates validation, and `setBoard` runs only when the
check passes; otherwise the board state is left as it was. -/
def requestFinish (dict : List Char → Bool) (board : Board) : Board :=
  if validateWordIsland board then (validateBoard dict board).1 else board

/-- The grid invariant of the data model (§3 of the spec), as a decidable
check: the matrix is square (every row as long as the list of rows) and
every tile's stored coordinates match its matrix position. -/
def wellFormedTiles (tiles : List (List Tile)) : Bool :=
  tiles.all (fun row => row.length == tiles.length) &&
    (List.range tiles.length).all fun r =>
      (List.range (tiles.getD r []).length).all fun c =>
        match tileAt tiles r c with
        | some t => t.row == r && t.col == c
        | none => true

/-! ## Basic grid infrastructure -/

/-- The non-state fields of a tile (identity, coordinates, occupant). -/
structure TileCore where
  id : Nat
  row : Nat
  col : Nat
  letter : Option Letter
deriving DecidableEq, Repr

/-- Strip a tile down to its non-state fields. -/
def Tile.core (t : Tile) : TileCore :=
  ⟨t.id, t.row, t.col, t.letter⟩

/-- Strip a whole grid down to non-state fields. -/
def coreGrid (tiles : List (List Tile)) : List (List TileCore) :=
  tiles.map (List.map Tile.core)

/-! ## Specification-side definitions -/

/-- The character shown by a tile, if it bears a letter. -/
def Tile.char (t : Tile) : Option Char :=
  t.letter.map Letter.letter

/-- Row `r` of the grid (empty when `r` is out of range). -/
def rowAt (tiles : List (List Tile)) (r : Nat) : List Tile :=
  tiles.getD r []

/-- The state of the tile at position `p`, if the position exists. -/
def stateAt (tiles : List (List Tile)) (p : Nat × Nat) : Option TileState :=
  (tileAt tiles p.1 p.2).map Tile.state

/-- The position of the `k`-th cell spanned by a candidate word: the
fixed row and `length` consecutive columns for a row-wise word, the fixed
column and `length` consecutive rows for a column-wise word. -/
def spanPos (w : WordFromTile) (k : Nat) : Nat × Nat :=
  match w.direction with
  | WordDirection.LeftToRight => (w.row, w.col + k)
  | WordDirection.TopToBottom => (w.row + k, w.col)

/-- Modelled from the spec (§4.3): the maximal runs of consecutive
non-empty cells of one line, listed in increasing index order, each run
tagged with the index of its first cell.  `i` is the index of the head of
the remaining line.  `takeWhile`/`dropWhile` make maximality syntactic: a
run extends over every consecutive occupied cell and stops exactly at the
first empty cell or at line end. -/
def specRuns : Nat → List (Option Char) → List (Nat × List Char)
  | _, [] => []
  | i, none :: l => specRuns (i + 1) l
  | i, some ch :: l =>
    (i, ch :: (l.takeWhile Option.isSome).filterMap id) ::
      specRuns (i + 1 + (l.takeWhile Option.isSome).length) (l.dropWhile Option.isSome)
termination_by _ l => l.length
decreasing_by
· simp
· exact Nat.lt_succ_of_le (List.Sublist.length_le (List.dropWhile_sublist _))

/-- Modelled from the spec (§4.3), row-wise pass: for each row, the
maximal runs of two or more consecutive occupied cells, as candidate
words with lowercased text and the run's first cell as origin. -/
def specWordsLTR (tiles : List (List Tile)) : List WordFromTile :=
  (((tiles.enum.map fun p =>
        (specRuns 0 (p.2.map Tile.char)).map fun run =>
          WordFromTile.mk run.2 p.1 run.1 WordDirection.LeftToRight).flatten).filter
      fun w => w.word.length > 1).map
    fun w => { w with word := w.word.map Char.toLower }

/-- The characters of grid column `c`, cell by cell in increasing row
order (an absent or empty cell contributes `none`). -/
def colChars (tiles : List (List Tile)) (c : Nat) : List (Option Char) :=
  tiles.map fun row => (row.get? c).bind Tile.char

/-- Modelled from the spec (§4.3), column-wise pass: for each column, the
maximal runs of two or more consecutive occupied cells, as candidate
words with lowercased text and the run's first cell as origin. -/
def specWordsTTB (tiles : List (List Tile)) : List WordFromTile :=
  ((((List.range (tiles.headD []).length).map fun c =>
        (specRuns 0 (colChars tiles c)).map fun run =>
          WordFromTile.mk run.2 run.1 c WordDirection.TopToBottom).flatten).filter
      fun w => w.word.length > 1).map
    fun w => { w with word := w.word.map Char.toLower }

/-- No two horizontally or vertically adjacent cells are both occupied,
i.e. the occupied tiles form no run of length two or more in either
orientation. -/
def hasNoAdjacentOccupied (tiles : List (List Tile)) : Bool :=
  (List.range tiles.length).all fun r =>
    (List.range (tiles.getD r []).length).all fun c =>
      !(occupiedAt tiles r c && (occupiedAt tiles r (c + 1) || occupiedAt tiles (r + 1) c))

/-- Two grid positions are 4-directionally adjacent. -/
def Adjacent (p q : Nat × Nat) : Prop :=
  (p.1 = q.1 ∧ (p.2 + 1 = q.2 ∨ q.2 + 1 = p.2)) ∨
    (p.2 = q.2 ∧ (p.1 + 1 = q.1 ∨ q.1 + 1 = p.1))

/-- Position `p` is reachable from `s` by steps onto occupied
4-directional neighbours. -/
def ReachableFrom (tiles : List (List Tile)) (s p : Nat × Nat) : Prop :=
  Relation.ReflTransGen (fun a b => Adjacent a b ∧ occupiedAt tiles b.1 b.2 = true) s p

/-- The occupancy predicate on tiles. -/
def pOcc : Tile → Bool := fun t => t.letter.isSome

/-- The per-tile state invariant maintained by the passes of
`validateBoard`: the non-state fields agree with the original grid,
no tile is `MIXED`, and a tile is `IDLE` exactly when it bears no
letter. -/
def GoodStates (orig ts : List (List Tile)) : Prop :=
  coreGrid ts = coreGrid orig ∧
    ∀ r c t, tileAt ts r c = some t →
      t.state ≠ TileState.MIXED ∧ (t.state = TileState.IDLE ↔ t.letter = none)

/-- One guarded neighbour visit of `markTilesDFS` (shared shape of the
four neighbour blocks). -/
def dfsVisit (tiles : List (List Tile)) (maxRow maxCol fuel : Nat) (cond : Prop)
    [Decidable cond] (vis : List (Nat × Nat)) (q : Nat × Nat) : List (Nat × Nat) :=
  if cond ∧ occupiedAt tiles q.1 q.2 = true ∧ q ∉ vis then
    markTilesDFS tiles maxRow maxCol fuel vis q
  else vis

/-- The guarded neighbour relation used by the traversal: `q` is the
up, left, down or right neighbour of `x`, subject to the source's bound
guards. -/
def dfsNbr (maxRow maxCol : Nat) (x q : Nat × Nat) : Prop :=
  (0 < x.1 ∧ q = (x.1 - 1, x.2)) ∨ (0 < x.2 ∧ q = (x.1, x.2 - 1)) ∨
    (x.1 < maxRow - 1 ∧ q = (x.1 + 1, x.2)) ∨ (x.2 < maxCol - 1 ∧ q = (x.1, x.2 + 1))

/-! ## Example boards (used to instantiate theorems with hypotheses) -/

/-- Build a tile literal. -/
def mkTile (i r c : Nat) (l : Option Letter) : Tile :=
  ⟨i, r, c, l, TileState.IDLE⟩

/-- A 3×3 board with the word "cat" alone in its first row. -/
def exBoardCat : Board :=
  ⟨(0, 0),
    [[mkTile 0 0 0 (some ⟨100, 'c'⟩), mkTile 1 0 1 (some ⟨101, 'a'⟩),
        mkTile 2 0 2 (some ⟨102, 't'⟩)],
      [mkTile 3 1 0 none, mkTile 4 1 1 none, mkTile 5 1 2 none],
      [mkTile 6 2 0 none, mkTile 7 2 1 none, mkTile 8 2 2 none]]⟩

/-- A 3×3 board with "cat" across the first row and "cot" down the first
column, crossing at the shared `c`. -/
def exBoardCross : Board :=
  ⟨(0, 0),
    [[mkTile 0 0 0 (some ⟨100, 'c'⟩), mkTile 1 0 1 (some ⟨101, 'a'⟩),
        mkTile 2 0 2 (some ⟨102, 't'⟩)],
      [mkTile 3 1 0 (some ⟨103, 'o'⟩), mkTile 4 1 1 none, mkTile 5 1 2 none],
      [mkTile 6 2 0 (some ⟨104, 't'⟩), mkTile 7 2 1 none, mkTile 8 2 2 none]]⟩

/-- A 2×2 board with two diagonally placed letters: two occupied islands. -/
def exBoardDisconnected : Board :=
  ⟨(0, 0),
    [[mkTile 0 0 0 (some ⟨100, 'x'⟩), mkTile 1 0 1 none],
      [mkTile 2 1 0 none, mkTile 3 1 1 (some ⟨101, 'y'⟩)]]⟩

/-- A 2×2 board with a single letter. -/
def exBoardSingle : Board :=
  ⟨(0, 0),
    [[mkTile 0 0 0 (some ⟨100, 'q'⟩), mkTile 1 0 1 none],
      [mkTile 2 1 0 none, mkTile 3 1 1 none]]⟩

/-- A dictionary containing exactly the word "cat". -/
def exDict : List Char → Bool := fun w => w == ['c', 'a', 't']

/-! ## Basic list and grid facts -/

theorem getD_eq_get?_getD {α : Type} (l : List α) (n : Nat) (d : α) :
    l.getD n d = (l.get? n).getD d := rfl

theorem tileAt_eq_get? (tiles : List (List Tile)) (r c : Nat) :
    tileAt tiles r c = ((tiles.get? r).getD []).get? c := rfl

theorem get?_modify {α : Type} (f : α → α) (n : Nat) (l : List α) (m : Nat) :
    (List.modify f n l).get? m = if n = m then (l.get? m).map f else l.get? m := by
  rw [List.get?_eq_getElem?, List.get?_eq_getElem?, List.getElem?_modify]
  by_cases h : n = m <;> simp [h, Option.map_eq_map]

/-! ## C4: the overall boolean -/

/-- C4: for every board and dictionary, the boolean returned by
`validateBoard` is `true` iff every candidate word of the concatenated
list (row-wise results first, then column-wise) is a dictionary member;
it is computed on the full candidate list, before and independently of
the tile-state passes. -/
theorem validateBoard_snd_iff_all_words_in_dict (dict : List Char → Bool) (b : Board) :
    (validateBoard dict b).2 = true ↔
      ∀ w ∈ getWordsFromTilesLTR b.tiles ++ getWordsFromTilesTTB b.tiles,
        dict w.word = true := by
  have h : (validateBoard dict b).2 =
      (getWordsFromTilesLTR b.tiles ++ getWordsFromTilesTTB b.tiles).all
        fun w => dict w.word := rfl
  rw [h, List.all_eq_true]

/-! ## C8: the connectivity gate in `requestFinish` -/

/-- C8: whenever the connectivity check fails, `requestFinish` never
invokes `validateBoard`: the board state it produces is exactly the input
board, so no tile is marked on a disconnected (or empty) board. -/
theorem requestFinish_skips_validation_of_disconnected (dict : List Char → Bool) (b : Board)
    (h : validateWordIsland b = false) : requestFinish dict b = b := by
  simp [requestFinish, h]

/-- Witness for C8: the two-island board is rejected by the connectivity
check and `requestFinish` leaves it unchanged. -/
theorem requestFinish_skips_validation_of_disconnected_witness :
    validateWordIsland exBoardDisconnected = false ∧
      requestFinish exDict exBoardDisconnected = exBoardDisconnected :=
  ⟨by decide, requestFinish_skips_validation_of_disconnected exDict exBoardDisconnected (by decide)⟩

/-! ## Core preservation: the passes only rewrite tile states -/

theorem core_mk_state (t : Tile) (st : TileState) :
    ({ t with state := st } : Tile).core = t.core := rfl

theorem core_initTile (t : Tile) : (initTile t).core = t.core := by
  cases h : t.letter <;> simp [initTile, h, Tile.core]

theorem map_core_modify (f : Tile → Tile) (hf : ∀ t, (f t).core = t.core) (c : Nat)
    (row : List Tile) : (List.modify f c row).map Tile.core = row.map Tile.core := by
  apply List.ext_get?
  intro n
  rw [List.get?_map, List.get?_map, get?_modify]
  by_cases h : c = n
  · simp only [h, if_pos rfl]
    cases row.get? n <;> simp [hf]
  · simp [h]

theorem coreGrid_modify (g : List Tile → List Tile)
    (hg : ∀ row, (g row).map Tile.core = row.map Tile.core) (r : Nat)
    (ts : List (List Tile)) : coreGrid (List.modify g r ts) = coreGrid ts := by
  unfold coreGrid
  apply List.ext_get?
  intro n
  rw [List.get?_map, List.get?_map, get?_modify]
  by_cases h : r = n
  · simp only [h, if_pos rfl]
    cases ts.get? n <;> simp [hg]
  · simp [h]

theorem foldl_coreGrid_invariant {α : Type} (f : List (List Tile) → α → List (List Tile))
    (hf : ∀ ts a, coreGrid (f ts a) = coreGrid ts) (l : List α) (ts : List (List Tile)) :
    coreGrid (l.foldl f ts) = coreGrid ts := by
  induction l generalizing ts with
  | nil => rfl
  | cons a l ih => rw [List.foldl_cons, ih, hf]

theorem coreGrid_setTileState (st : TileState) (r c : Nat) (ts : List (List Tile)) :
    coreGrid (setTileState st r c ts) = coreGrid ts := by
  unfold setTileState
  exact coreGrid_modify _
    (fun row => map_core_modify (fun t => { t with state := st }) (fun _ => rfl) c row) r ts

theorem coreGrid_demoteTileState (r c : Nat) (ts : List (List Tile)) :
    coreGrid (demoteTileState r c ts) = coreGrid ts := by
  unfold demoteTileState
  refine coreGrid_modify _
    (fun row => map_core_modify
      (fun t => if t.state = TileState.VALID then { t with state := TileState.INVALID } else t)
      (fun t => ?_) c row) r ts
  by_cases h : t.state = TileState.VALID <;> simp [h, Tile.core]

theorem coreGrid_markWordValid (gb : Nat) (ts : List (List Tile)) (w : WordFromTile) :
    coreGrid (markWordValid gb ts w) = coreGrid ts := by
  obtain ⟨word, row, col, dir⟩ := w
  cases dir
  case LeftToRight =>
    exact foldl_coreGrid_invariant _ (fun a c => coreGrid_setTileState _ _ _ a) _ ts
  case TopToBottom =>
    refine foldl_coreGrid_invariant _ (fun a r => ?_) _ ts
    dsimp only
    split
    · rfl
    · exact coreGrid_setTileState _ _ _ a

theorem coreGrid_demoteWordInvalid (gb : Nat) (ts : List (List Tile)) (w : WordFromTile) :
    coreGrid (demoteWordInvalid gb ts w) = coreGrid ts := by
  obtain ⟨word, row, col, dir⟩ := w
  cases dir
  case LeftToRight =>
    exact foldl_coreGrid_invariant _ (fun a c => coreGrid_demoteTileState _ _ a) _ ts
  case TopToBottom =>
    refine foldl_coreGrid_invariant _ (fun a r => ?_) _ ts
    dsimp only
    split
    · rfl
    · exact coreGrid_demoteTileState _ _ a

theorem coreGrid_init (ts : List (List Tile)) :
    coreGrid (ts.map (List.map initTile)) = coreGrid ts := by
  unfold coreGrid
  rw [List.map_map]
  apply List.map_congr_left
  intro row _
  dsimp only [Function.comp]
  rw [List.map_map]
  apply List.map_congr_left
  intro t _
  exact core_initTile t

/-- The annotated grid of `validateBoard` agrees with the input grid on
every non-state field. -/
theorem validateBoard_core_eq (dict : List Char → Bool) (b : Board) :
    coreGrid (validateBoard dict b).1.tiles = coreGrid b.tiles := by
  show coreGrid
      (((foundWords b.tiles).filter fun w => !dict w.word).foldl
        (demoteWordInvalid b.tiles.length)
        (((foundWords b.tiles).filter fun w => dict w.word).foldl
          (markWordValid b.tiles.length) (b.tiles.map (List.map initTile)))) =
    coreGrid b.tiles
  rw [foldl_coreGrid_invariant _ (fun a w => coreGrid_demoteWordInvalid _ a w),
    foldl_coreGrid_invariant _ (fun a w => coreGrid_markWordValid _ a w), coreGrid_init]

/-! ## C5: the validator does not mutate tile identity -/

/-- C5: `validateBoard` is pure (the input board is a value that is never
changed; the result is a fresh snapshot), the cursor is passed through
unchanged, and in the returned board every tile keeps the id, row, column
and letter of the corresponding input tile — only the state field is
recomputed. -/
theorem validateBoard_preserves_identity (dict : List Char → Bool) (b : Board) :
    (validateBoard dict b).1.cursor = b.cursor ∧
      coreGrid (validateBoard dict b).1.tiles = coreGrid b.tiles :=
  ⟨rfl, validateBoard_core_eq dict b⟩

/-! ## Congruence: the validator reads only non-state fields -/

theorem core_fields {t t' : Tile} (h : t.core = t'.core) :
    t.id = t'.id ∧ t.row = t'.row ∧ t.col = t'.col ∧ t.letter = t'.letter := by
  refine ⟨congrArg TileCore.id h, congrArg TileCore.row h, congrArg TileCore.col h,
    congrArg TileCore.letter h⟩

theorem scanLine_cons_none (d : WordDirection) (t : Tile) (ts : List Tile) :
    scanLine d none (t :: ts) =
      match t.letter with
      | some l => scanLine d (some ⟨[l.letter], t.row, t.col, d⟩) ts
      | none => scanLine d none ts := rfl

theorem scanLine_cons_some (d : WordDirection) (cur : WordFromTile) (t : Tile)
    (ts : List Tile) :
    scanLine d (some cur) (t :: ts) =
      match t.letter with
      | some l => scanLine d (some { cur with word := cur.word ++ [l.letter] }) ts
      | none => cur :: scanLine d none ts := rfl

theorem scanLine_congr (d : WordDirection) :
    ∀ (L L' : List Tile), L.map Tile.core = L'.map Tile.core →
      ∀ cur, scanLine d cur L = scanLine d cur L' := by
  intro L
  induction L with
  | nil =>
    intro L' h cur
    cases L' with
    | nil => rfl
    | cons a as => simp at h
  | cons t ts ih =>
    intro L' h cur
    cases L' with
    | nil => simp at h
    | cons t' ts' =>
      simp only [List.map_cons, List.cons.injEq] at h
      obtain ⟨hc, hts⟩ := h
      obtain ⟨_, hrow, hcol, hlet⟩ := core_fields hc
      cases cur with
      | none =>
        rw [scanLine_cons_none, scanLine_cons_none]
        cases hl : t.letter with
        | none => rw [hlet] at hl; rw [hl]; exact ih ts' hts none
        | some l => rw [hlet] at hl; rw [hl, hrow, hcol]; exact ih ts' hts _
      | some cur =>
        rw [scanLine_cons_some, scanLine_cons_some]
        cases hl : t.letter with
        | none => rw [hlet] at hl; rw [hl, ih ts' hts none]
        | some l => rw [hlet] at hl; rw [hl]; exact ih ts' hts _

theorem coreGrid_length_eq {ts ts' : List (List Tile)} (h : coreGrid ts = coreGrid ts') :
    ts.length = ts'.length := by
  have := congrArg List.length h
  simpa [coreGrid] using this

theorem coreGrid_headD_length_eq {ts ts' : List (List Tile)}
    (h : coreGrid ts = coreGrid ts') : (ts.headD []).length = (ts'.headD []).length := by
  cases ts with
  | nil =>
    cases ts' with
    | nil => rfl
    | cons r rs => simp [coreGrid] at h
  | cons r rs =>
    cases ts' with
    | nil => simp [coreGrid] at h
    | cons r' rs' =>
      simp only [coreGrid, List.map_cons, List.cons.injEq] at h
      have := congrArg List.length h.1
      simpa using this

theorem columnTiles_congr :
    ∀ (ts ts' : List (List Tile)), coreGrid ts = coreGrid ts' → ∀ c,
      (columnTiles ts c).map Tile.core = (columnTiles ts' c).map Tile.core := by
  intro ts
  induction ts with
  | nil =>
    intro ts' h c
    cases ts' with
    | nil => rfl
    | cons r rs => simp [coreGrid] at h
  | cons row rows ih =>
    intro ts' h c
    cases ts' with
    | nil => simp [coreGrid] at h
    | cons row' rows' =>
      simp only [coreGrid, List.map_cons, List.cons.injEq] at h
      obtain ⟨hrow, hrows⟩ := h
      have hcell : (row.get? c).map Tile.core = (row'.get? c).map Tile.core := by
        rw [← List.get?_map, ← List.get?_map, hrow]
      unfold columnTiles
      simp only [List.filterMap_cons]
      cases h1 : row.get? c with
      | none =>
        rw [h1] at hcell
        cases h2 : row'.get? c with
        | none => exact ih rows' hrows c
        | some u => rw [h2] at hcell; simp at hcell
      | some u =>
        rw [h1] at hcell
        cases h2 : row'.get? c with
        | none => rw [h2] at hcell; simp at hcell
        | some u' =>
          rw [h2] at hcell
          simp at hcell
          simp only [List.map_cons, List.cons.injEq]
          exact ⟨hcell, ih rows' hrows c⟩

theorem getWordsFromTilesLTR_congr :
    ∀ (ts ts' : List (List Tile)), coreGrid ts = coreGrid ts' →
      getWordsFromTilesLTR ts = getWordsFromTilesLTR ts' := by
  have key : ∀ (ts ts' : List (List Tile)), coreGrid ts = coreGrid ts' →
      ts.map (scanLine WordDirection.LeftToRight none) =
        ts'.map (scanLine WordDirection.LeftToRight none) := by
    intro ts
    induction ts with
    | nil =>
      intro ts' h
      cases ts' with
      | nil => rfl
      | cons r rs => simp [coreGrid] at h
    | cons row rows ih =>
      intro ts' h
      cases ts' with
      | nil => simp [coreGrid] at h
      | cons row' rows' =>
        simp only [coreGrid, List.map_cons, List.cons.injEq] at h
        simp only [List.map_cons, List.cons.injEq]
        exact ⟨scanLine_congr _ _ _ h.1 none, ih rows' h.2⟩
  intro ts ts' h
  unfold getWordsFromTilesLTR
  rw [key ts ts' h]

theorem getWordsFromTilesTTB_congr (ts ts' : List (List Tile))
    (h : coreGrid ts = coreGrid ts') :
    getWordsFromTilesTTB ts = getWordsFromTilesTTB ts' := by
  unfold getWordsFromTilesTTB
  rw [coreGrid_headD_length_eq h]
  have : ∀ c, scanLine WordDirection.TopToBottom none (columnTiles ts c) =
      scanLine WordDirection.TopToBottom none (columnTiles ts' c) := fun c =>
    scanLine_congr _ _ _ (columnTiles_congr ts ts' h c) none
  rw [List.map_congr_left fun c _ => this c]

theorem initTile_congr {t t' : Tile} (h : t.core = t'.core) : initTile t = initTile t' := by
  obtain ⟨i, r, c, l, st⟩ := t
  obtain ⟨i', r', c', l', st'⟩ := t'
  simp only [Tile.core, TileCore.mk.injEq] at h
  obtain ⟨h1, h2, h3, h4⟩ := h
  subst h1; subst h2; subst h3; subst h4
  cases l <;> rfl

theorem initGrid_congr :
    ∀ (ts ts' : List (List Tile)), coreGrid ts = coreGrid ts' →
      ts.map (List.map initTile) = ts'.map (List.map initTile) := by
  have inner : ∀ (row row' : List Tile), row.map Tile.core = row'.map Tile.core →
      row.map initTile = row'.map initTile := by
    intro row
    induction row with
    | nil =>
      intro row' h
      cases row' with
      | nil => rfl
      | cons a as => simp at h
    | cons t rest ih =>
      intro row' h
      cases row' with
      | nil => simp at h
      | cons t' rest' =>
        simp only [List.map_cons, List.cons.injEq] at h ⊢
        exact ⟨initTile_congr h.1, ih rest' h.2⟩
  intro ts
  induction ts with
  | nil =>
    intro ts' h
    cases ts' with
    | nil => rfl
    | cons r rs => simp [coreGrid] at h
  | cons row rows ih =>
    intro ts' h
    cases ts' with
    | nil => simp [coreGrid] at h
    | cons row' rows' =>
      simp only [coreGrid, List.map_cons, List.cons.injEq] at h
      simp only [List.map_cons, List.cons.injEq]
      exact ⟨inner row row' h.1, ih rows' h.2⟩

/-- `validateBoard` only reads the non-state fields of its input: two
boards with the same cursor and the same non-state tile data validate to
identical results. -/
theorem validateBoard_congr (dict : List Char → Bool) (b b' : Board)
    (hcur : b.cursor = b'.cursor) (h : coreGrid b.tiles = coreGrid b'.tiles) :
    validateBoard dict b = validateBoard dict b' := by
  unfold validateBoard
  dsimp only
  rw [hcur, coreGrid_length_eq h, getWordsFromTilesLTR_congr _ _ h,
    getWordsFromTilesTTB_congr _ _ h, initGrid_congr _ _ h]

/-! ## C6: idempotence -/

/-- C6: re-validating the annotated board returned by `validateBoard`
(with the same dictionary) reproduces exactly the same annotated board
and the same boolean, because tile states are rewritten from scratch and
never read as input. -/
theorem validateBoard_idempotent (dict : List Char → Bool) (b : Board) :
    validateBoard dict (validateBoard dict b).1 = validateBoard dict b :=
  validateBoard_congr dict (validateBoard dict b).1 b rfl (validateBoard_core_eq dict b)

/-! ## C7: the column-wise bound guard -/

theorem foldl_invariant {α β γ : Type} (g : β → γ) (f : β → α → β)
    (hf : ∀ b a, g (f b a) = g b) (l : List α) (b : β) : g (l.foldl f b) = g b := by
  induction l generalizing b with
  | nil => rfl
  | cons a l ih => rw [List.foldl_cons, ih, hf]

theorem rowAt_setTileState_ne (st : TileState) (r c j : Nat) (ts : List (List Tile))
    (h : r ≠ j) : rowAt (setTileState st r c ts) j = rowAt ts j := by
  unfold rowAt setTileState
  rw [getD_eq_get?_getD, getD_eq_get?_getD, get?_modify]
  simp [h]

theorem rowAt_demoteTileState_ne (r c j : Nat) (ts : List (List Tile)) (h : r ≠ j) :
    rowAt (demoteTileState r c ts) j = rowAt ts j := by
  unfold rowAt demoteTileState
  rw [getD_eq_get?_getD, getD_eq_get?_getD, get?_modify]
  simp [h]

/-- C7: for a column-wise word, both the Pass A marking and the Pass B
demotion silently skip every spanned row index that would exceed the
grid's last row (`gridBounds - 1`), so no row at index `gridBounds` or
beyond is ever accessed or written — even for a run that starts near the
last row and would otherwise span past it. -/
theorem ttb_passes_skip_rows_beyond_bounds (gb : Nat) (ts : List (List Tile))
    (w : WordFromTile) (hd : w.direction = WordDirection.TopToBottom) (j : Nat)
    (hj : gb ≤ j) :
    rowAt (markWordValid gb ts w) j = rowAt ts j ∧
      rowAt (demoteWordInvalid gb ts w) j = rowAt ts j := by
  obtain ⟨word, row, col, dir⟩ := w
  dsimp only at hd
  subst hd
  constructor
  · refine foldl_invariant (fun a => rowAt a j) _ (fun a r => ?_) _ ts
    dsimp only
    split
    · rfl
    · rename_i hle
      refine rowAt_setTileState_ne _ _ _ _ _ ?_
      push_neg at hle
      intro hcontra
      omega
  · refine foldl_invariant (fun a => rowAt a j) _ (fun a r => ?_) _ ts
    dsimp only
    split
    · rfl
    · rename_i hle
      refine rowAt_demoteTileState_ne _ _ _ _ ?_
      push_neg at hle
      intro hcontra
      omega

/-- Witness for C7: a column-wise word of length 2 starting on the last
in-bounds row of a gridBounds-2 region leaves row 2 untouched in both
passes. -/
theorem ttb_passes_skip_rows_beyond_bounds_witness :
    (WordFromTile.mk ['x', 'y'] 1 0 WordDirection.TopToBottom).direction =
        WordDirection.TopToBottom ∧ 2 ≤ 2 ∧
      (rowAt (markWordValid 2 exBoardCross.tiles
            (WordFromTile.mk ['x', 'y'] 1 0 WordDirection.TopToBottom)) 2 =
          rowAt exBoardCross.tiles 2 ∧
        rowAt (demoteWordInvalid 2 exBoardCross.tiles
            (WordFromTile.mk ['x', 'y'] 1 0 WordDirection.TopToBottom)) 2 =
          rowAt exBoardCross.tiles 2) :=
  ⟨rfl, by decide,
    ttb_passes_skip_rows_beyond_bounds 2 exBoardCross.tiles
      (WordFromTile.mk ['x', 'y'] 1 0 WordDirection.TopToBottom) rfl 2 (by decide)⟩

/-! ## The scanning loop computes exactly the maximal runs -/

theorem isSome_comp_char : (Option.isSome ∘ Tile.char) = pOcc := by
  funext t
  cases h : t.letter <;> simp [Tile.char, pOcc, h]

theorem specRuns_nil (i : Nat) : specRuns i [] = [] := by
  simp [specRuns]

theorem specRuns_cons_none (i : Nat) (l : List (Option Char)) :
    specRuns i (none :: l) = specRuns (i + 1) l := by
  simp [specRuns]

theorem specRuns_cons_some (i : Nat) (ch : Char) (l : List (Option Char)) :
    specRuns i (some ch :: l) =
      (i, ch :: (l.takeWhile Option.isSome).filterMap id) ::
        specRuns (i + 1 + (l.takeWhile Option.isSome).length) (l.dropWhile Option.isSome) := by
  simp [specRuns]

/-- Behaviour of the scanning loop with a pending word buffer: it extends
the buffer across the maximal occupied prefix, emits it at the first
empty cell (or at line end), and scans the remainder with an empty
buffer. -/
theorem scanLine_some (d : WordDirection) :
    ∀ (L : List Tile) (cw : WordFromTile),
      scanLine d (some cw) L =
        { cw with word := cw.word ++ (L.takeWhile pOcc).filterMap Tile.char } ::
          scanLine d none (L.dropWhile pOcc).tail := by
  intro L
  induction L with
  | nil => intro cw; simp [scanLine]
  | cons t ts ih =>
    intro cw
    rw [scanLine_cons_some]
    cases hl : t.letter with
    | some l =>
      have hocc : pOcc t = true := by simp [pOcc, hl]
      rw [List.takeWhile_cons_of_pos hocc, List.dropWhile_cons_of_pos hocc]
      dsimp only
      rw [ih]
      simp [Tile.char, hl]
    | none =>
      have hocc : pOcc t = false := by simp [pOcc, hl]
      rw [List.takeWhile_cons_of_neg (by simp [hocc]), List.dropWhile_cons_of_neg (by simp [hocc])]
      simp

theorem get?_append_cons {α : Type} (A B : List α) (x : α) (i : Nat) :
    (A ++ x :: B).get? (A.length + (1 + i)) = B.get? i := by
  rw [List.get?_eq_getElem?, List.getElem?_append_right (by omega)]
  have harith : A.length + (1 + i) - A.length = i + 1 := by omega
  rw [harith]
  simp [List.get?_eq_getElem?]

theorem dropWhile_head_not {α : Type} (p : α → Bool) :
    ∀ (l : List α) (e : α) (rest : List α), l.dropWhile p = e :: rest → p e = false := by
  intro l
  induction l with
  | nil => intro e rest h; simp at h
  | cons a as ih =>
    intro e rest h
    by_cases hp : p a = true
    · rw [List.dropWhile_cons_of_pos hp] at h
      exact ih e rest h
    · rw [List.dropWhile_cons_of_neg hp] at h
      injection h with h1 h2
      subst h1
      simpa using hp

theorem scanLine_cons_empty (d : WordDirection) (t : Tile) (ts : List Tile)
    (h : t.letter = none) : scanLine d none (t :: ts) = scanLine d none ts := by
  rw [scanLine_cons_none, h]

theorem scanLine_cons_occ (d : WordDirection) (t : Tile) (ts : List Tile) (l : Letter)
    (h : t.letter = some l) :
    scanLine d none (t :: ts) = scanLine d (some ⟨[l.letter], t.row, t.col, d⟩) ts := by
  rw [scanLine_cons_none, h]

/-- The scanning loop started with an empty buffer returns exactly the
maximal runs of the line, tagged with the coordinates recorded in the
tiles — provided the tile coordinates agree with a position map `posOf`
of the cell indices. -/
theorem scanLine_none_eq_specRuns (d : WordDirection) (posOf : Nat → Nat × Nat) :
    ∀ (n : Nat) (L : List Tile), L.length ≤ n → ∀ (i0 : Nat),
      (∀ i t, L.get? i = some t → t.row = (posOf (i0 + i)).1 ∧ t.col = (posOf (i0 + i)).2) →
      scanLine d none L =
        (specRuns i0 (L.map Tile.char)).map
          fun run => WordFromTile.mk run.2 (posOf run.1).1 (posOf run.1).2 d := by
  intro n
  induction n with
  | zero =>
    intro L hL i0 _
    have : L = [] := List.length_eq_zero.mp (Nat.le_zero.mp hL)
    subst this
    simp [scanLine, specRuns_nil]
  | succ n ih =>
    intro L hL i0 hpos
    cases L with
    | nil => simp [scanLine, specRuns_nil]
    | cons t ts =>
      have hts : ts.length ≤ n := by simpa using hL
      cases hl : t.letter with
      | none =>
        have hchar : Tile.char t = none := by simp [Tile.char, hl]
        rw [scanLine_cons_empty d t ts hl, List.map_cons, hchar, specRuns_cons_none]
        refine ih ts hts (i0 + 1) ?_
        intro i u hu
        have := hpos (i + 1) u (by rwa [List.get?_cons_succ])
        have harith : i0 + (i + 1) = i0 + 1 + i := by omega
        rwa [harith] at this
      | some l =>
        have hchar : Tile.char t = some l.letter := by simp [Tile.char, hl]
        rw [scanLine_cons_occ d t ts l hl, scanLine_some, List.map_cons, hchar,
          specRuns_cons_some, List.map_cons]
        have htake : (ts.map Tile.char).takeWhile Option.isSome =
            (ts.takeWhile pOcc).map Tile.char := by
          rw [List.takeWhile_map, isSome_comp_char]
        have hdropm : (ts.map Tile.char).dropWhile Option.isSome =
            (ts.dropWhile pOcc).map Tile.char := by
          rw [List.dropWhile_map, isSome_comp_char]
        have hfm : ((ts.takeWhile pOcc).map Tile.char).filterMap id =
            (ts.takeWhile pOcc).filterMap Tile.char := by
          rw [List.filterMap_map]
          rfl
        have hpos0 := hpos 0 t rfl
        rw [Nat.add_zero] at hpos0
        congr 1
        · rw [htake, hfm]
          dsimp only
          rw [hpos0.1, hpos0.2]
          rfl
        · rw [hdropm, htake, List.length_map]
          cases hdrop : ts.dropWhile pOcc with
          | nil => simp [scanLine, specRuns_nil]
          | cons e rest =>
            have he : pOcc e = false := dropWhile_head_not pOcc ts e rest hdrop
            have heltr : e.letter = none := by
              have : ¬e.letter.isSome = true := by simpa [pOcc] using he
              exact Option.not_isSome_iff_eq_none.mp this
            have hechar : Tile.char e = none := by simp [Tile.char, heltr]
            rw [List.map_cons, hechar, specRuns_cons_none, List.tail_cons]
            have hlen : rest.length ≤ n := by
              have h1 : (ts.dropWhile pOcc).length ≤ ts.length :=
                List.Sublist.length_le (List.dropWhile_sublist _)
              rw [hdrop] at h1
              simp only [List.length_cons] at h1
              omega
            refine ih rest hlen (i0 + 1 + (ts.takeWhile pOcc).length + 1) ?_
            intro i u hu
            have htsdecomp : ts = ts.takeWhile pOcc ++ (e :: rest) := by
              conv_lhs => rw [← List.takeWhile_append_dropWhile pOcc ts]
              rw [hdrop]
            have hidx : ts.get? ((ts.takeWhile pOcc).length + (1 + i)) = some u := by
              have hgen := get?_append_cons (ts.takeWhile pOcc) rest e i
              rw [← htsdecomp] at hgen
              rw [hgen]
              exact hu
            have hL2 := hpos ((ts.takeWhile pOcc).length + (1 + i) + 1) u
              (by rwa [List.get?_cons_succ])
            have harith : i0 + ((ts.takeWhile pOcc).length + (1 + i) + 1) =
                i0 + 1 + (ts.takeWhile pOcc).length + 1 + i := by omega
            rwa [harith] at hL2

/-! ## Consequences of the grid invariant -/

theorem wellFormed_square {ts : List (List Tile)} (h : wellFormedTiles ts = true) :
    ∀ row ∈ ts, row.length = ts.length := by
  unfold wellFormedTiles at h
  rw [Bool.and_eq_true] at h
  have h1 := h.1
  rw [List.all_eq_true] at h1
  intro row hr
  have := h1 row hr
  simpa using this

theorem wellFormed_coords {ts : List (List Tile)} (h : wellFormedTiles ts = true) :
    ∀ r c t, tileAt ts r c = some t → t.row = r ∧ t.col = c := by
  unfold wellFormedTiles at h
  rw [Bool.and_eq_true] at h
  have h2 := h.2
  rw [List.all_eq_true] at h2
  intro r c t ht
  have hr : r < ts.length := by
    by_contra hge
    push_neg at hge
    have hnil : ts.getD r [] = [] := by
      rw [getD_eq_get?_getD, List.get?_eq_getElem?, List.getElem?_eq_none hge]
      rfl
    rw [tileAt, hnil] at ht
    simp at ht
  have hc : c < (ts.getD r []).length := by
    have := (List.get?_eq_some.mp ht).1
    exact this
  have hrow := h2 r (List.mem_range.mpr hr)
  rw [List.all_eq_true] at hrow
  have hcell := hrow c (List.mem_range.mpr hc)
  rw [ht] at hcell
  simp only [Bool.and_eq_true, beq_iff_eq] at hcell
  exact hcell

/-! ## The extractors versus the specification runs -/

theorem ltr_rows_eq :
    ∀ (rows : List (List Tile)) (R0 : Nat),
      (∀ k row, rows.get? k = some row →
        ∀ i t, row.get? i = some t → t.row = R0 + k ∧ t.col = i) →
      rows.map (scanLine WordDirection.LeftToRight none) =
        (List.enumFrom R0 rows).map fun p =>
          (specRuns 0 (p.2.map Tile.char)).map fun run =>
            WordFromTile.mk run.2 p.1 run.1 WordDirection.LeftToRight := by
  intro rows
  induction rows with
  | nil => intro R0 _; rfl
  | cons row rest ih =>
    intro R0 hco
    rw [List.map_cons, List.enumFrom_cons, List.map_cons]
    congr 1
    · have := scanLine_none_eq_specRuns WordDirection.LeftToRight (fun j => (R0, j))
        row.length row (Nat.le_refl _) 0 ?_
      · rw [this]
      · intro i t ht
        have := hco 0 row rfl i t ht
        simpa using this
    · refine ih (R0 + 1) ?_
      intro k r hk i t ht
      have := hco (k + 1) r (by rwa [List.get?_cons_succ]) i t ht
      have harith : R0 + (k + 1) = R0 + 1 + k := by omega
      rwa [harith] at this

theorem getWordsFromTilesLTR_eq_spec (tiles : List (List Tile))
    (h : wellFormedTiles tiles = true) :
    getWordsFromTilesLTR tiles = specWordsLTR tiles := by
  unfold getWordsFromTilesLTR specWordsLTR
  have henum : tiles.enum = List.enumFrom 0 tiles := rfl
  rw [henum, ltr_rows_eq tiles 0 ?_]
  intro k row hk i t ht
  have hrowD : tiles.getD k [] = row := by
    rw [getD_eq_get?_getD, hk]
    rfl
  have htile : tileAt tiles k i = some t := by
    rw [tileAt, hrowD]
    exact ht
  have := wellFormed_coords h k i t htile
  simpa using this

theorem columnTiles_get? (c : Nat) :
    ∀ (ts : List (List Tile)), (∀ row ∈ ts, (row.get? c).isSome = true) →
      ∀ i, (columnTiles ts c).get? i = (ts.getD i []).get? c := by
  intro ts
  induction ts with
  | nil =>
    intro _ i
    simp [columnTiles, getD_eq_get?_getD]
  | cons row rest ih =>
    intro hall i
    obtain ⟨u, hu⟩ : ∃ u, row.get? c = some u := by
      have := hall row (List.mem_cons_self row rest)
      exact Option.isSome_iff_exists.mp this
    have hcol : columnTiles (row :: rest) c = u :: columnTiles rest c := by
      unfold columnTiles
      rw [List.filterMap_cons, hu]
    cases i with
    | zero =>
      rw [hcol]
      simpa [getD_eq_get?_getD] using hu.symm
    | succ i =>
      rw [hcol, List.get?_cons_succ, ih (fun r hr => hall r (List.mem_cons_of_mem row hr)) i]
      rfl

theorem colChars_eq_map_char (c : Nat) :
    ∀ (ts : List (List Tile)), (∀ row ∈ ts, (row.get? c).isSome = true) →
      colChars ts c = (columnTiles ts c).map Tile.char := by
  intro ts
  induction ts with
  | nil => intro _; rfl
  | cons row rest ih =>
    intro hall
    obtain ⟨u, hu⟩ : ∃ u, row.get? c = some u := by
      have := hall row (List.mem_cons_self row rest)
      exact Option.isSome_iff_exists.mp this
    have hcol : columnTiles (row :: rest) c = u :: columnTiles rest c := by
      unfold columnTiles
      rw [List.filterMap_cons, hu]
    unfold colChars
    rw [List.map_cons, hcol, List.map_cons, hu]
    have := ih (fun r hr => hall r (List.mem_cons_of_mem row hr))
    unfold colChars at this
    rw [this]
    rfl

theorem ttb_col_eq (ts : List (List Tile)) (h : wellFormedTiles ts = true) (c : Nat)
    (hc : c < (ts.headD []).length) :
    scanLine WordDirection.TopToBottom none (columnTiles ts c) =
      (specRuns 0 (colChars ts c)).map fun run =>
        WordFromTile.mk run.2 run.1 c WordDirection.TopToBottom := by
  have hall : ∀ row ∈ ts, (row.get? c).isSome = true := by
    intro row hr
    have hlen := wellFormed_square h row hr
    have hwidth : (ts.headD []).length = ts.length := by
      cases ts with
      | nil => simp at hr
      | cons r0 rest => exact wellFormed_square h r0 (List.mem_cons_self r0 rest)
    have hcrow : c < row.length := by omega
    cases hg : row.get? c with
    | none =>
      have := List.get?_eq_none.mp hg
      omega
    | some u => rfl
  rw [colChars_eq_map_char c ts hall]
  have := scanLine_none_eq_specRuns WordDirection.TopToBottom (fun j => (j, c))
    (columnTiles ts c).length (columnTiles ts c) (Nat.le_refl _) 0 ?_
  · rw [this]
  · intro i t ht
    rw [columnTiles_get? c ts hall i] at ht
    have := wellFormed_coords h i c t ht
    simpa using this

theorem getWordsFromTilesTTB_eq_spec (tiles : List (List Tile))
    (h : wellFormedTiles tiles = true) :
    getWordsFromTilesTTB tiles = specWordsTTB tiles := by
  unfold getWordsFromTilesTTB specWordsTTB
  have : ∀ c ∈ List.range (tiles.headD []).length,
      scanLine WordDirection.TopToBottom none (columnTiles tiles c) =
        (specRuns 0 (colChars tiles c)).map fun run =>
          WordFromTile.mk run.2 run.1 c WordDirection.TopToBottom := fun c hc =>
    ttb_col_eq tiles h c (List.mem_range.mp hc)
  rw [List.map_congr_left this]

/-! ## C3: the extractors return exactly the maximal runs -/

/-- C3: on a well-formed grid, each word extractor returns exactly the
maximal runs of two or more consecutive occupied cells of each line
(rows for the row-wise pass, columns for the column-wise pass), scanned
in increasing index order, with lowercased text and the coordinates of
the run's first letter as origin; length-1 runs are discarded, an empty
cell always ends a run, and a run still open at line end is flushed
(`specRuns` makes these properties syntactic via
`takeWhile`/`dropWhile`). -/
theorem extractors_return_exactly_maximal_runs (tiles : List (List Tile))
    (h : wellFormedTiles tiles = true) :
    getWordsFromTilesLTR tiles = specWordsLTR tiles ∧
      getWordsFromTilesTTB tiles = specWordsTTB tiles :=
  ⟨getWordsFromTilesLTR_eq_spec tiles h, getWordsFromTilesTTB_eq_spec tiles h⟩

/-- Witness for C3: the crossing "cat"/"cot" board is well formed and its
extractors agree with the specification runs. -/
theorem extractors_return_exactly_maximal_runs_witness :
    wellFormedTiles exBoardCross.tiles = true ∧
      (getWordsFromTilesLTR exBoardCross.tiles = specWordsLTR exBoardCross.tiles ∧
        getWordsFromTilesTTB exBoardCross.tiles = specWordsTTB exBoardCross.tiles) :=
  ⟨by decide, extractors_return_exactly_maximal_runs exBoardCross.tiles (by decide)⟩

/-! ## Cells spanned by a run are occupied -/

theorem filterMap_id_length {α : Type} :
    ∀ (l : List (Option α)), (∀ x ∈ l, x.isSome = true) →
      (l.filterMap id).length = l.length := by
  intro l
  induction l with
  | nil => intro _; rfl
  | cons x xs ih =>
    intro h
    obtain ⟨a, ha⟩ := Option.isSome_iff_exists.mp (h x (List.mem_cons_self x xs))
    rw [List.filterMap_cons, ha]
    show (a :: xs.filterMap id).length = xs.length + 1
    simp only [List.length_cons]
    rw [ih fun y hy => h y (List.mem_cons_of_mem x hy)]

/-- Every cell spanned by a run of `specRuns i l` lies inside the line
and is occupied: cell `s - i + k` of `l` holds a character, for every
offset `k` below the run's length. -/
theorem specRuns_span :
    ∀ (n : Nat) (l : List (Option Char)), l.length ≤ n → ∀ (i : Nat) (s : Nat) (w : List Char),
      (s, w) ∈ specRuns i l →
      i ≤ s ∧ (s - i) + w.length ≤ l.length ∧ 1 ≤ w.length ∧
        ∀ k, k < w.length → ∃ ch, l.get? (s - i + k) = some (some ch) := by
  intro n
  induction n with
  | zero =>
    intro l hl i s w hmem
    have : l = [] := List.length_eq_zero.mp (Nat.le_zero.mp hl)
    subst this
    rw [specRuns_nil] at hmem
    simp at hmem
  | succ n ih =>
    intro l hl i s w hmem
    cases l with
    | nil =>
      rw [specRuns_nil] at hmem
      simp at hmem
    | cons x xs =>
      have hxs : xs.length ≤ n := by simpa using hl
      cases x with
      | none =>
        rw [specRuns_cons_none] at hmem
        obtain ⟨h1, h2, h3, h4⟩ := ih xs hxs (i + 1) s w hmem
        refine ⟨by omega, ?_, h3, ?_⟩
        · simp only [List.length_cons]
          omega
        · intro k hk
          obtain ⟨ch, hch⟩ := h4 k hk
          refine ⟨ch, ?_⟩
          have harith : s - i + k = (s - (i + 1) + k) + 1 := by omega
          rw [harith, List.get?_cons_succ]
          exact hch
      | some ch0 =>
        rw [specRuns_cons_some] at hmem
        rcases List.mem_cons.mp hmem with hhead | htail
        · -- the first run of the line
          have hs : s = i := congrArg Prod.fst hhead
          have hw : w = ch0 :: (xs.takeWhile Option.isSome).filterMap id :=
            congrArg Prod.snd hhead
          subst hs
          have htklen : ((xs.takeWhile Option.isSome).filterMap id).length =
              (xs.takeWhile Option.isSome).length :=
            filterMap_id_length _ fun y hy => List.mem_takeWhile_imp hy
          have htkle : (xs.takeWhile Option.isSome).length ≤ xs.length :=
            List.Sublist.length_le (List.takeWhile_sublist _)
          refine ⟨Nat.le_refl _, ?_, ?_, ?_⟩
          · rw [hw]
            simp only [List.length_cons, htklen]
            simp only [Nat.sub_self, List.length_cons]
            omega
          · rw [hw]; simp
          · intro k hk
            rw [Nat.sub_self, Nat.zero_add]
            cases k with
            | zero => exact ⟨ch0, rfl⟩
            | succ k =>
              rw [List.get?_cons_succ]
              have hklt : k < (xs.takeWhile Option.isSome).length := by
                rw [hw] at hk
                simp only [List.length_cons, htklen] at hk
                omega
              obtain ⟨y, hy⟩ : ∃ y, (xs.takeWhile Option.isSome).get? k = some y := by
                cases hg : (xs.takeWhile Option.isSome).get? k with
                | none =>
                  have := List.get?_eq_none.mp hg
                  omega
                | some y => exact ⟨y, rfl⟩
              have hyx : xs.get? k = some y := by
                conv_lhs => rw [← List.takeWhile_append_dropWhile Option.isSome xs]
                rw [List.get?_append hklt]
                exact hy
              have hysome : y.isSome = true := by
                refine List.mem_takeWhile_imp (List.mem_iff_get?.mpr ⟨k, hy⟩)
              obtain ⟨chy, hchy⟩ := Option.isSome_iff_exists.mp hysome
              exact ⟨chy, by rw [hyx, hchy]⟩
        · -- a later run of the line
          set tk := (xs.takeWhile Option.isSome).length with htk
          have hdroplen : (xs.dropWhile Option.isSome).length ≤ xs.length :=
            List.Sublist.length_le (List.dropWhile_sublist _)
          have hlensum : tk + (xs.dropWhile Option.isSome).length = xs.length := by
            have h0 := congrArg List.length (List.takeWhile_append_dropWhile Option.isSome xs)
            rw [List.length_append] at h0
            exact h0
          obtain ⟨h1, h2, h3, h4⟩ := ih (xs.dropWhile Option.isSome)
            (by omega) (i + 1 + tk) s w htail
          refine ⟨by omega, ?_, h3, ?_⟩
          · simp only [List.length_cons]
            omega
          · intro k hk
            obtain ⟨ch, hch⟩ := h4 k hk
            have hdw : xs.dropWhile Option.isSome = xs.drop tk := by
              conv_rhs => rw [← List.takeWhile_append_dropWhile Option.isSome xs]
              rw [htk, List.drop_left]
            rw [hdw, List.get?_drop] at hch
            refine ⟨ch, ?_⟩
            have harith : s - i + k = (tk + (s - (i + 1 + tk) + k)) + 1 := by omega
            rw [harith, List.get?_cons_succ]
            exact hch

theorem occupiedAt_lt (ts : List (List Tile)) (r c : Nat) (h : occupiedAt ts r c = true) :
    r < ts.length ∧ c < (ts.getD r []).length := by
  unfold occupiedAt at h
  cases hg : tileAt ts r c with
  | none => rw [hg] at h; simp at h
  | some t =>
    have hc : c < (ts.getD r []).length := (List.get?_eq_some.mp hg).1
    refine ⟨?_, hc⟩
    by_contra hge
    push_neg at hge
    have hnil : ts.getD r [] = [] := by
      rw [getD_eq_get?_getD, List.get?_eq_getElem?, List.getElem?_eq_none hge]
      rfl
    rw [tileAt, hnil] at hg
    simp at hg

theorem specWordsLTR_span (ts : List (List Tile)) (w : WordFromTile)
    (hw : w ∈ specWordsLTR ts) :
    w.direction = WordDirection.LeftToRight ∧ 2 ≤ w.word.length ∧
      ∀ k, k < w.word.length → occupiedAt ts w.row (w.col + k) = true := by
  unfold specWordsLTR at hw
  obtain ⟨w0, hw0, hweq⟩ := List.mem_map.mp hw
  obtain ⟨hflat, hlen⟩ := List.mem_filter.mp hw0
  obtain ⟨sub, hsub, hmemsub⟩ := List.mem_flatten.mp hflat
  obtain ⟨pr, hpr, hsubeq⟩ := List.mem_map.mp hsub
  subst hsubeq
  obtain ⟨run, hrun, hw0eq⟩ := List.mem_map.mp hmemsub
  subst hw0eq
  subst hweq
  have hrow : ts.get? pr.1 = some pr.2 := List.mem_enum_iff_get?.mp hpr
  obtain ⟨_, _, _, hspan⟩ := specRuns_span (pr.2.map Tile.char).length _ (Nat.le_refl _)
    0 run.1 run.2 hrun
  refine ⟨rfl, ?_, ?_⟩
  · have hgt : run.2.length > 1 := by simpa using hlen
    simpa using hgt
  · intro k hk
    simp only [List.length_map] at hk
    obtain ⟨ch, hch⟩ := hspan k hk
    rw [Nat.sub_zero, List.get?_map] at hch
    obtain ⟨t, ht, htch⟩ : ∃ t, pr.2.get? (run.1 + k) = some t ∧ Tile.char t = some ch := by
      cases hg : pr.2.get? (run.1 + k) with
      | none => rw [hg] at hch; simp at hch
      | some t =>
        rw [hg] at hch
        simp at hch
        exact ⟨t, rfl, hch⟩
    unfold occupiedAt tileAt
    have hD : ts.getD pr.1 [] = pr.2 := by
      rw [getD_eq_get?_getD, hrow]
      rfl
    rw [hD, ht]
    unfold Tile.char at htch
    cases hl : t.letter with
    | none => rw [hl] at htch; simp at htch
    | some u => simp [hl]

theorem specWordsTTB_span (ts : List (List Tile)) (w : WordFromTile)
    (hw : w ∈ specWordsTTB ts) :
    w.direction = WordDirection.TopToBottom ∧ 2 ≤ w.word.length ∧
      ∀ k, k < w.word.length → occupiedAt ts (w.row + k) w.col = true := by
  unfold specWordsTTB at hw
  obtain ⟨w0, hw0, hweq⟩ := List.mem_map.mp hw
  obtain ⟨hflat, hlen⟩ := List.mem_filter.mp hw0
  obtain ⟨sub, hsub, hmemsub⟩ := List.mem_flatten.mp hflat
  obtain ⟨c, _, hsubeq⟩ := List.mem_map.mp hsub
  subst hsubeq
  obtain ⟨run, hrun, hw0eq⟩ := List.mem_map.mp hmemsub
  subst hw0eq
  subst hweq
  obtain ⟨_, _, _, hspan⟩ := specRuns_span (colChars ts c).length _ (Nat.le_refl _)
    0 run.1 run.2 hrun
  refine ⟨rfl, ?_, ?_⟩
  · have hgt : run.2.length > 1 := by simpa using hlen
    simpa using hgt
  · intro k hk
    simp only [List.length_map] at hk
    obtain ⟨ch, hch⟩ := hspan k hk
    rw [Nat.sub_zero] at hch
    unfold colChars at hch
    rw [List.get?_map] at hch
    obtain ⟨row, hrow, hbind⟩ :
        ∃ row, ts.get? (run.1 + k) = some row ∧ (row.get? c).bind Tile.char = some ch := by
      cases hg : ts.get? (run.1 + k) with
      | none => rw [hg] at hch; simp at hch
      | some row =>
        rw [hg] at hch
        have hch2 : some ((row.get? c).bind Tile.char) = some (some ch) := hch
        exact ⟨row, rfl, by injection hch2⟩
    obtain ⟨t, ht, htch⟩ : ∃ t, row.get? c = some t ∧ Tile.char t = some ch := by
      cases hg : row.get? c with
      | none => rw [hg] at hbind; simp at hbind
      | some t => rw [hg] at hbind; exact ⟨t, rfl, hbind⟩
    unfold occupiedAt tileAt
    have hD : ts.getD (run.1 + k) [] = row := by
      rw [getD_eq_get?_getD, hrow]
      rfl
    rw [hD, ht]
    unfold Tile.char at htch
    cases hl : t.letter with
    | none => rw [hl] at htch; simp at htch
    | some u => simp [hl]

/-- Every candidate word spans only occupied, in-range cells, and has
length at least 2. -/
theorem foundWords_span (ts : List (List Tile)) (h : wellFormedTiles ts = true)
    (w : WordFromTile) (hw : w ∈ foundWords ts) :
    2 ≤ w.word.length ∧
      ∀ k, k < w.word.length → occupiedAt ts (spanPos w k).1 (spanPos w k).2 = true := by
  unfold foundWords at hw
  rcases List.mem_append.mp hw with h1 | h2
  · rw [getWordsFromTilesLTR_eq_spec ts h] at h1
    obtain ⟨hd, hlen, hocc⟩ := specWordsLTR_span ts w h1
    refine ⟨hlen, fun k hk => ?_⟩
    unfold spanPos
    rw [hd]
    exact hocc k hk
  · rw [getWordsFromTilesTTB_eq_spec ts h] at h2
    obtain ⟨hd, hlen, hocc⟩ := specWordsTTB_span ts w h2
    refine ⟨hlen, fun k hk => ?_⟩
    unfold spanPos
    rw [hd]
    exact hocc k hk

/-! ## Pointwise effect of the state-writing operations -/

theorem tileAt_inner_modify_same (f : Tile → Tile) (r c : Nat) (ts : List (List Tile)) :
    tileAt (List.modify (fun row => List.modify f c row) r ts) r c =
      (tileAt ts r c).map f := by
  unfold tileAt
  rw [getD_eq_get?_getD, getD_eq_get?_getD, get?_modify, if_pos rfl]
  cases ts.get? r with
  | none => simp
  | some row =>
    simp only [Option.map_some', Option.getD_some]
    rw [get?_modify, if_pos rfl]

theorem tileAt_inner_modify_ne (f : Tile → Tile) (r c : Nat) (ts : List (List Tile))
    (r' c' : Nat) (h : ¬(r = r' ∧ c = c')) :
    tileAt (List.modify (fun row => List.modify f c row) r ts) r' c' = tileAt ts r' c' := by
  unfold tileAt
  rw [getD_eq_get?_getD, getD_eq_get?_getD, get?_modify]
  by_cases hr : r = r'
  · subst hr
    have hc : ¬c = c' := fun hc => h ⟨rfl, hc⟩
    rw [if_pos rfl]
    cases ts.get? r with
    | none => simp
    | some row =>
      simp only [Option.map_some', Option.getD_some]
      rw [get?_modify, if_neg hc]
  · simp [hr]

theorem tileAt_map (f : Tile → Tile) (ts : List (List Tile)) (r c : Nat) :
    tileAt (ts.map (List.map f)) r c = (tileAt ts r c).map f := by
  unfold tileAt
  rw [getD_eq_get?_getD, getD_eq_get?_getD, List.get?_map]
  cases ts.get? r with
  | none => simp
  | some row => simp [List.get?_map]

theorem coreGrid_get (ts : List (List Tile)) (r c : Nat) :
    ((coreGrid ts).getD r []).get? c = (tileAt ts r c).map Tile.core := by
  unfold coreGrid tileAt
  rw [getD_eq_get?_getD, getD_eq_get?_getD, List.get?_map]
  cases ts.get? r with
  | none => simp
  | some row => simp [List.get?_map]

theorem tileAt_core_congr {ts ts' : List (List Tile)} (h : coreGrid ts = coreGrid ts')
    (r c : Nat) : (tileAt ts r c).map Tile.core = (tileAt ts' r c).map Tile.core := by
  rw [← coreGrid_get, ← coreGrid_get, h]

theorem occupiedAt_congr {ts ts' : List (List Tile)} (h : coreGrid ts = coreGrid ts')
    (r c : Nat) : occupiedAt ts r c = occupiedAt ts' r c := by
  have hco := tileAt_core_congr h r c
  unfold occupiedAt
  cases h1 : tileAt ts r c with
  | none =>
    cases h2 : tileAt ts' r c with
    | none => rfl
    | some u => rw [h1, h2] at hco; simp at hco
  | some t =>
    cases h2 : tileAt ts' r c with
    | none => rw [h1, h2] at hco; simp at hco
    | some u =>
      rw [h1, h2] at hco
      simp only [Option.map_some', Option.some.injEq] at hco
      obtain ⟨_, _, _, hlet⟩ := core_fields hco
      simp [hlet]

/-! ## The passes maintain the state invariant -/

theorem foldl_preserve_mem {α β : Type} (P : β → Prop) (f : β → α → β) :
    ∀ (l : List α), (∀ b a, a ∈ l → P b → P (f b a)) → ∀ b, P b → P (l.foldl f b) := by
  intro l
  induction l with
  | nil => intro _ b hb; exact hb
  | cons a as ih =>
    intro h b hb
    rw [List.foldl_cons]
    exact ih (fun b' a' ha' hb' => h b' a' (List.mem_cons_of_mem a ha') hb')
      (f b a) (h b a (List.mem_cons_self a as) hb)

theorem goodStates_init (orig : List (List Tile)) :
    GoodStates orig (orig.map (List.map initTile)) := by
  refine ⟨coreGrid_init orig, ?_⟩
  intro r c t ht
  rw [tileAt_map] at ht
  obtain ⟨t0, ht0, hteq⟩ : ∃ t0, tileAt orig r c = some t0 ∧ t = initTile t0 := by
    cases hg : tileAt orig r c with
    | none => rw [hg] at ht; simp at ht
    | some t0 =>
      rw [hg] at ht
      simp only [Option.map_some', Option.some.injEq] at ht
      exact ⟨t0, rfl, ht.symm⟩
  subst hteq
  cases hl : t0.letter with
  | none => simp [initTile, hl]
  | some u => simp [initTile, hl]

theorem goodStates_setValid (orig ts : List (List Tile)) (r c : Nat)
    (hgs : GoodStates orig ts) (hocc : occupiedAt orig r c = true) :
    GoodStates orig (setTileState TileState.VALID r c ts) := by
  obtain ⟨hcore, hst⟩ := hgs
  refine ⟨by rw [coreGrid_setTileState, hcore], ?_⟩
  intro r' c' t ht
  by_cases hp : r = r' ∧ c = c'
  · obtain ⟨rfl, rfl⟩ := hp
    unfold setTileState at ht
    rw [tileAt_inner_modify_same] at ht
    obtain ⟨t0, ht0, hteq⟩ : ∃ t0, tileAt ts r c = some t0 ∧
        t = { t0 with state := TileState.VALID } := by
      cases hg : tileAt ts r c with
      | none => rw [hg] at ht; simp at ht
      | some t0 =>
        rw [hg] at ht
        simp only [Option.map_some', Option.some.injEq] at ht
        exact ⟨t0, rfl, ht.symm⟩
    subst hteq
    have hocc2 : occupiedAt ts r c = true := by
      rw [occupiedAt_congr hcore r c]
      exact hocc
    unfold occupiedAt at hocc2
    rw [ht0] at hocc2
    obtain ⟨u, hu⟩ := Option.isSome_iff_exists.mp hocc2
    simp [hu]
  · unfold setTileState at ht
    rw [tileAt_inner_modify_ne _ _ _ _ _ _ hp] at ht
    exact hst r' c' t ht

theorem goodStates_demote (orig ts : List (List Tile)) (r c : Nat)
    (hgs : GoodStates orig ts) : GoodStates orig (demoteTileState r c ts) := by
  obtain ⟨hcore, hst⟩ := hgs
  refine ⟨by rw [coreGrid_demoteTileState, hcore], ?_⟩
  intro r' c' t ht
  by_cases hp : r = r' ∧ c = c'
  · obtain ⟨rfl, rfl⟩ := hp
    unfold demoteTileState at ht
    rw [tileAt_inner_modify_same] at ht
    obtain ⟨t0, ht0, hteq⟩ : ∃ t0, tileAt ts r c = some t0 ∧
        t = if t0.state = TileState.VALID then { t0 with state := TileState.INVALID }
          else t0 := by
      cases hg : tileAt ts r c with
      | none => rw [hg] at ht; simp at ht
      | some t0 =>
        rw [hg] at ht
        simp only [Option.map_some', Option.some.injEq] at ht
        exact ⟨t0, rfl, ht.symm⟩
    subst hteq
    obtain ⟨hmx, hidle⟩ := hst r c t0 ht0
    by_cases hv : t0.state = TileState.VALID
    · have hletter : t0.letter ≠ none := by
        intro hn
        have := hidle.mpr hn
        rw [hv] at this
        exact TileState.noConfusion this
      simp only [hv, if_pos rfl]
      refine ⟨by intro hx; exact TileState.noConfusion hx, ?_⟩
      constructor
      · intro hx; exact absurd hx (by intro hx2; exact TileState.noConfusion hx2)
      · intro hn; exact absurd hn hletter
    · rw [if_neg hv]
      exact ⟨hmx, hidle⟩
  · unfold demoteTileState at ht
    rw [tileAt_inner_modify_ne _ _ _ _ _ _ hp] at ht
    exact hst r' c' t ht

theorem goodStates_markWordValid (orig : List (List Tile)) (gb : Nat) (ts : List (List Tile))
    (w : WordFromTile) (hgs : GoodStates orig ts)
    (hspan : ∀ k, k < w.word.length →
      occupiedAt orig (spanPos w k).1 (spanPos w k).2 = true) :
    GoodStates orig (markWordValid gb ts w) := by
  obtain ⟨word, row, col, dir⟩ := w
  cases dir
  case LeftToRight =>
    show GoodStates orig ((List.range word.length).foldl
      (fun a c => setTileState TileState.VALID row (col + c) a) ts)
    refine foldl_preserve_mem _ _ _ (fun b k hk hb => ?_) ts hgs
    have hkr := List.mem_range.mp hk
    have := hspan k hkr
    unfold spanPos at this
    exact goodStates_setValid orig b row (col + k) hb this
  case TopToBottom =>
    show GoodStates orig ((List.range word.length).foldl
      (fun a r => if ((row + r : Nat) : Int) > (gb : Int) - 1 then a
        else setTileState TileState.VALID (row + r) col a) ts)
    refine foldl_preserve_mem _ _ _ (fun b k hk hb => ?_) ts hgs
    have hkr := List.mem_range.mp hk
    have := hspan k hkr
    unfold spanPos at this
    split
    · exact hb
    · exact goodStates_setValid orig b (row + k) col hb this

theorem goodStates_demoteWordInvalid (orig : List (List Tile)) (gb : Nat)
    (ts : List (List Tile)) (w : WordFromTile) (hgs : GoodStates orig ts) :
    GoodStates orig (demoteWordInvalid gb ts w) := by
  obtain ⟨word, row, col, dir⟩ := w
  cases dir
  case LeftToRight =>
    show GoodStates orig ((List.range word.length).foldl
      (fun a c => demoteTileState row (col + c) a) ts)
    refine foldl_preserve_mem _ _ _ (fun b k _ hb => ?_) ts hgs
    exact goodStates_demote orig b row (col + k) hb
  case TopToBottom =>
    show GoodStates orig ((List.range word.length).foldl
      (fun a r => if ((row + r : Nat) : Int) > (gb : Int) - 1 then a
        else demoteTileState (row + r) col a) ts)
    refine foldl_preserve_mem _ _ _ (fun b k _ hb => ?_) ts hgs
    split
    · exact hb
    · exact goodStates_demote orig b (row + k) col hb

/-- The grid returned by `validateBoard` satisfies the state invariant. -/
theorem goodStates_validateBoard (dict : List Char → Bool) (b : Board)
    (hwf : wellFormedTiles b.tiles = true) :
    GoodStates b.tiles (validateBoard dict b).1.tiles := by
  show GoodStates b.tiles
    (((foundWords b.tiles).filter fun w => !dict w.word).foldl
      (demoteWordInvalid b.tiles.length)
      (((foundWords b.tiles).filter fun w => dict w.word).foldl
        (markWordValid b.tiles.length) (b.tiles.map (List.map initTile))))
  refine foldl_preserve_mem _ _ _ (fun ts w _ hts =>
    goodStates_demoteWordInvalid b.tiles _ ts w hts) _ ?_
  refine foldl_preserve_mem _ _ _ (fun ts w hw hts => ?_) _ (goodStates_init b.tiles)
  have hwmem : w ∈ foundWords b.tiles := (List.mem_filter.mp hw).1
  exact goodStates_markWordValid b.tiles _ ts w hts
    (foundWords_span b.tiles hwf w hwmem).2

/-! ## Pass B never leaves a demoted tile `VALID` -/

theorem stateAt_demote_target (r c : Nat) (ts : List (List Tile)) :
    stateAt (demoteTileState r c ts) (r, c) ≠ some TileState.VALID := by
  unfold stateAt demoteTileState
  rw [tileAt_inner_modify_same]
  cases tileAt ts r c with
  | none => simp
  | some t0 =>
    simp only [Option.map_some']
    by_cases hv : t0.state = TileState.VALID <;> simp [hv]

theorem stateAt_demote_preserve (r c : Nat) (ts : List (List Tile)) (p : Nat × Nat)
    (h : stateAt ts p ≠ some TileState.VALID) :
    stateAt (demoteTileState r c ts) p ≠ some TileState.VALID := by
  by_cases hp : r = p.1 ∧ c = p.2
  · obtain ⟨h1, h2⟩ := hp
    subst h1
    subst h2
    exact stateAt_demote_target p.1 p.2 ts
  · unfold stateAt demoteTileState
    rw [tileAt_inner_modify_ne _ _ _ _ _ _ hp]
    exact h

theorem stateAt_demoteWord_preserve (gb : Nat) (ts : List (List Tile)) (w : WordFromTile)
    (p : Nat × Nat) (h : stateAt ts p ≠ some TileState.VALID) :
    stateAt (demoteWordInvalid gb ts w) p ≠ some TileState.VALID := by
  obtain ⟨word, row, col, dir⟩ := w
  cases dir
  case LeftToRight =>
    show stateAt ((List.range word.length).foldl
      (fun a c => demoteTileState row (col + c) a) ts) p ≠ some TileState.VALID
    refine foldl_preserve_mem (fun b => stateAt b p ≠ some TileState.VALID)
      _ _ (fun b k _ hb => ?_) ts h
    exact stateAt_demote_preserve row (col + k) b p hb
  case TopToBottom =>
    show stateAt ((List.range word.length).foldl
      (fun a r => if ((row + r : Nat) : Int) > (gb : Int) - 1 then a
        else demoteTileState (row + r) col a) ts) p ≠ some TileState.VALID
    refine foldl_preserve_mem (fun b => stateAt b p ≠ some TileState.VALID)
      _ _ (fun b k _ hb => ?_) ts h
    split
    · exact hb
    · exact stateAt_demote_preserve (row + k) col b p hb

theorem stateAt_demoteWord_span (gb : Nat) (ts : List (List Tile)) (w : WordFromTile)
    (k : Nat) (hk : k < w.word.length)
    (hguard : w.direction = WordDirection.TopToBottom →
      ((w.row + k : Nat) : Int) ≤ (gb : Int) - 1) :
    stateAt (demoteWordInvalid gb ts w) (spanPos w k) ≠ some TileState.VALID := by
  obtain ⟨word, row, col, dir⟩ := w
  have hk2 : k < word.length := hk
  have hsplit : word.length = (k + 1) + (word.length - (k + 1)) := by omega
  cases dir
  case LeftToRight =>
    show stateAt ((List.range word.length).foldl
      (fun a c => demoteTileState row (col + c) a) ts)
        (spanPos ⟨word, row, col, WordDirection.LeftToRight⟩ k) ≠ some TileState.VALID
    rw [hsplit, List.range_add, List.foldl_append, List.range_succ, List.foldl_append]
    refine foldl_preserve_mem (fun b => stateAt b _ ≠ some TileState.VALID)
      _ _ (fun b m _ hb => stateAt_demote_preserve row (col + m) b _ hb) _ ?_
    rw [List.foldl_cons]
    show stateAt ((List.foldl _ (demoteTileState row (col + k) _) []))
        (spanPos ⟨word, row, col, WordDirection.LeftToRight⟩ k) ≠ some TileState.VALID
    rw [List.foldl_nil]
    unfold spanPos
    exact stateAt_demote_target row (col + k) _
  case TopToBottom =>
    have hg : ((row + k : Nat) : Int) ≤ (gb : Int) - 1 := hguard rfl
    show stateAt ((List.range word.length).foldl
      (fun a r => if ((row + r : Nat) : Int) > (gb : Int) - 1 then a
        else demoteTileState (row + r) col a) ts)
        (spanPos ⟨word, row, col, WordDirection.TopToBottom⟩ k) ≠ some TileState.VALID
    rw [hsplit, List.range_add, List.foldl_append, List.range_succ, List.foldl_append]
    refine foldl_preserve_mem (fun b => stateAt b _ ≠ some TileState.VALID)
      _ _ (fun b m _ hb => ?_) _ ?_
    · split
      · exact hb
      · exact stateAt_demote_preserve (row + m) col b _ hb
    · rw [List.foldl_cons]
      have hnot : ¬(((row + k : Nat) : Int) > (gb : Int) - 1) := by omega
      rw [if_neg hnot]
      show stateAt (List.foldl _ (demoteTileState (row + k) col _) [])
          (spanPos ⟨word, row, col, WordDirection.TopToBottom⟩ k) ≠ some TileState.VALID
      rw [List.foldl_nil]
      unfold spanPos
      exact stateAt_demote_target (row + k) col _

theorem pass2_span_not_valid (gb : Nat) (ts : List (List Tile))
    (l : List WordFromTile) (w : WordFromTile) (hw : w ∈ l) (k : Nat)
    (hk : k < w.word.length)
    (hguard : w.direction = WordDirection.TopToBottom →
      ((w.row + k : Nat) : Int) ≤ (gb : Int) - 1) :
    stateAt (l.foldl (demoteWordInvalid gb) ts) (spanPos w k) ≠ some TileState.VALID := by
  obtain ⟨s, t2, rfl⟩ := List.append_of_mem hw
  rw [List.foldl_append, List.foldl_cons]
  refine foldl_preserve_mem (fun b => stateAt b (spanPos w k) ≠ some TileState.VALID)
    _ _ (fun b v _ hb => stateAt_demoteWord_preserve gb b v _ hb) _ ?_
  exact stateAt_demoteWord_span gb _ w k hk hguard

/-! ## C1: tiles of non-dictionary words end INVALID -/

/-- C1: on a well-formed board, after `validateBoard` completes, every
tile spanned by a candidate word that is not a dictionary member has
final state `INVALID` — in particular a tile marked `VALID` in Pass A by
the crossing word of the other orientation is demoted, never left
`VALID`, because the demotion pass runs after the full marking pass. -/
theorem invalid_word_tiles_end_invalid (dict : List Char → Bool) (b : Board)
    (hwf : wellFormedTiles b.tiles = true) (w : WordFromTile)
    (hw : w ∈ foundWords b.tiles) (hdict : dict w.word = false) (k : Nat)
    (hk : k < w.word.length) :
    stateAt (validateBoard dict b).1.tiles (spanPos w k) = some TileState.INVALID := by
  have hspan := (foundWords_span b.tiles hwf w hw).2 k hk
  have hlt := occupiedAt_lt _ _ _ hspan
  have hguard : w.direction = WordDirection.TopToBottom →
      ((w.row + k : Nat) : Int) ≤ (b.tiles.length : Int) - 1 := by
    intro hd
    have : (spanPos w k).1 < b.tiles.length := hlt.1
    unfold spanPos at this
    rw [hd] at this
    dsimp only at this
    omega
  have hwinv : w ∈ (foundWords b.tiles).filter fun v => !dict v.word :=
    List.mem_filter.mpr ⟨hw, by rw [hdict]; rfl⟩
  have hnv : stateAt (validateBoard dict b).1.tiles (spanPos w k) ≠
      some TileState.VALID := by
    show stateAt
      (((foundWords b.tiles).filter fun v => !dict v.word).foldl
        (demoteWordInvalid b.tiles.length)
        (((foundWords b.tiles).filter fun v => dict v.word).foldl
          (markWordValid b.tiles.length) (b.tiles.map (List.map initTile))))
      (spanPos w k) ≠ some TileState.VALID
    exact pass2_span_not_valid b.tiles.length _ _ w hwinv k hk hguard
  have hgs := goodStates_validateBoard dict b hwf
  have hocc_out : occupiedAt (validateBoard dict b).1.tiles
      (spanPos w k).1 (spanPos w k).2 = true := by
    rw [occupiedAt_congr hgs.1]
    exact hspan
  unfold occupiedAt at hocc_out
  cases hg : tileAt (validateBoard dict b).1.tiles (spanPos w k).1 (spanPos w k).2 with
  | none => rw [hg] at hocc_out; simp at hocc_out
  | some t =>
    rw [hg] at hocc_out
    have hocc2 : t.letter.isSome = true := hocc_out
    obtain ⟨hmx, hidle⟩ := hgs.2 _ _ t hg
    have hstate : stateAt (validateBoard dict b).1.tiles (spanPos w k) = some t.state := by
      unfold stateAt
      rw [hg]
      rfl
    rw [hstate]
    rw [hstate] at hnv
    cases hs : t.state with
    | IDLE =>
      have := hidle.mp hs
      rw [this] at hocc2
      simp at hocc2
    | VALID => exact absurd (by rw [hs]) hnv
    | INVALID => rfl
    | MIXED => exact absurd hs hmx

/-- Witness for C1: on the crossing board, the column word "cot" is not
in the dictionary {"cat"}; its first tile — shared with the valid row
word "cat" — ends `INVALID`. -/
theorem invalid_word_tiles_end_invalid_witness :
    wellFormedTiles exBoardCross.tiles = true ∧
      WordFromTile.mk ['c', 'o', 't'] 0 0 WordDirection.TopToBottom ∈
        foundWords exBoardCross.tiles ∧
      exDict ['c', 'o', 't'] = false ∧ 0 < 3 ∧
      stateAt (validateBoard exDict exBoardCross).1.tiles
          (spanPos (WordFromTile.mk ['c', 'o', 't'] 0 0 WordDirection.TopToBottom) 0) =
        some TileState.INVALID :=
  ⟨by decide, by decide, by decide, by decide,
    invalid_word_tiles_end_invalid exDict exBoardCross (by decide)
      (WordFromTile.mk ['c', 'o', 't'] 0 0 WordDirection.TopToBottom) (by decide)
      (by decide) 0 (by decide)⟩

/-! ## C9: boards without runs -/

theorem noAdjacent_spec (ts : List (List Tile)) (h : hasNoAdjacentOccupied ts = true)
    (r c : Nat) (hocc : occupiedAt ts r c = true) :
    occupiedAt ts r (c + 1) = false ∧ occupiedAt ts (r + 1) c = false := by
  have hlt := occupiedAt_lt ts r c hocc
  unfold hasNoAdjacentOccupied at h
  rw [List.all_eq_true] at h
  have h1 := h r (List.mem_range.mpr hlt.1)
  rw [List.all_eq_true] at h1
  have h2 := h1 c (List.mem_range.mpr hlt.2)
  simp [hocc] at h2
  exact h2

theorem foundWords_empty_of_noAdjacent (ts : List (List Tile))
    (hwf : wellFormedTiles ts = true) (hadj : hasNoAdjacentOccupied ts = true) :
    foundWords ts = [] := by
  unfold foundWords
  have hltr : getWordsFromTilesLTR ts = [] := by
    rw [getWordsFromTilesLTR_eq_spec ts hwf, List.eq_nil_iff_forall_not_mem]
    intro w hw
    obtain ⟨_, hlen, hocc⟩ := specWordsLTR_span ts w hw
    have h0 := hocc 0 (by omega)
    have h1 := hocc 1 (by omega)
    rw [Nat.add_zero] at h0
    have hfalse := (noAdjacent_spec ts hadj w.row w.col h0).1
    rw [hfalse] at h1
    simp at h1
  have httb : getWordsFromTilesTTB ts = [] := by
    rw [getWordsFromTilesTTB_eq_spec ts hwf, List.eq_nil_iff_forall_not_mem]
    intro w hw
    obtain ⟨_, hlen, hocc⟩ := specWordsTTB_span ts w hw
    have h0 := hocc 0 (by omega)
    have h1 := hocc 1 (by omega)
    rw [Nat.add_zero] at h0
    have hfalse := (noAdjacent_spec ts hadj w.row w.col h0).2
    rw [hfalse] at h1
    simp at h1
  rw [hltr, httb]
  rfl

/-- C9: on a well-formed board whose occupied tiles form no run of two
or more in either orientation, the candidate word list is empty,
`validateBoard` returns `allValid = true`, and yet every lettered tile of
the returned board has state `INVALID` — `allValid = true` does not imply
that any tile is marked `VALID`. -/
theorem no_runs_allValid_but_all_tiles_invalid (dict : List Char → Bool) (b : Board)
    (hwf : wellFormedTiles b.tiles = true)
    (hadj : hasNoAdjacentOccupied b.tiles = true) :
    foundWords b.tiles = [] ∧ (validateBoard dict b).2 = true ∧
      ∀ r c t, tileAt (validateBoard dict b).1.tiles r c = some t →
        t.letter.isSome = true → t.state = TileState.INVALID := by
  have hfw := foundWords_empty_of_noAdjacent b.tiles hwf hadj
  refine ⟨hfw, ?_, ?_⟩
  · have hsnd : (validateBoard dict b).2 =
        (foundWords b.tiles).all fun w => dict w.word := rfl
    rw [hsnd, hfw]
    rfl
  · intro r c t ht hlet
    have htiles : (validateBoard dict b).1.tiles = b.tiles.map (List.map initTile) := by
      show ((foundWords b.tiles).filter fun w => !dict w.word).foldl
          (demoteWordInvalid b.tiles.length)
          (((foundWords b.tiles).filter fun w => dict w.word).foldl
            (markWordValid b.tiles.length) (b.tiles.map (List.map initTile))) =
        b.tiles.map (List.map initTile)
      rw [hfw]
      rfl
    rw [htiles, tileAt_map] at ht
    obtain ⟨t0, _, hteq⟩ : ∃ t0, tileAt b.tiles r c = some t0 ∧ t = initTile t0 := by
      cases hg : tileAt b.tiles r c with
      | none => rw [hg] at ht; simp at ht
      | some t0 =>
        rw [hg] at ht
        simp only [Option.map_some', Option.some.injEq] at ht
        exact ⟨t0, rfl, ht.symm⟩
    subst hteq
    cases hl : t0.letter with
    | none => rw [initTile, hl] at hlet ⊢; simp at hlet
    | some u => rw [initTile, hl]

/-- Witness for C9: a single letter on a 2×2 board produces no candidate
words, `allValid = true`, and its lettered tile ends `INVALID`. -/
theorem no_runs_allValid_but_all_tiles_invalid_witness :
    wellFormedTiles exBoardSingle.tiles = true ∧
      hasNoAdjacentOccupied exBoardSingle.tiles = true ∧
      (foundWords exBoardSingle.tiles = [] ∧
        (validateBoard exDict exBoardSingle).2 = true ∧
        ∀ r c t, tileAt (validateBoard exDict exBoardSingle).1.tiles r c = some t →
          t.letter.isSome = true → t.state = TileState.INVALID) :=
  ⟨by decide, by decide,
    no_runs_allValid_but_all_tiles_invalid exDict exBoardSingle (by decide) (by decide)⟩

/-! ## C10: no MIXED state, and the valid-letter count -/

theorem flatten_filter_map {α : Type} (q : Tile → Bool) (f : Tile → α) :
    ∀ (ts : List (List Tile)),
      (ts.map fun row => (row.filter q).map f).flatten = ((ts.flatten).filter q).map f := by
  intro ts
  induction ts with
  | nil => rfl
  | cons row rest ih =>
    simp only [List.map_cons, List.flatten_cons, List.filter_append, List.map_append, ih]

theorem flatten_map_id_of_core {ts ts' : List (List Tile)}
    (h : coreGrid ts = coreGrid ts') :
    ts.flatten.map Tile.id = ts'.flatten.map Tile.id := by
  have hcore : ts.flatten.map Tile.core = ts'.flatten.map Tile.core := by
    rw [List.map_flatten, List.map_flatten]
    show (coreGrid ts).flatten = (coreGrid ts').flatten
    rw [h]
  have hid : ∀ (u : List (List Tile)),
      u.flatten.map Tile.id = (u.flatten.map Tile.core).map TileCore.id := by
    intro u
    rw [List.map_map]
    rfl
  rw [hid, hid, hcore]

theorem mem_flatten_tileAt (ts : List (List Tile)) (t : Tile) (ht : t ∈ ts.flatten) :
    ∃ r c, tileAt ts r c = some t := by
  obtain ⟨row, hrow, htin⟩ := List.mem_flatten.mp ht
  obtain ⟨r, hr⟩ := List.mem_iff_get?.mp hrow
  obtain ⟨c, hc⟩ := List.mem_iff_get?.mp htin
  refine ⟨r, c, ?_⟩
  unfold tileAt
  rw [getD_eq_get?_getD, hr]
  exact hc

/-- C10: on a well-formed board with distinct tile ids, `validateBoard`
never assigns `MIXED` — every returned tile is `IDLE` (exactly the
letterless tiles), `VALID` or `INVALID` — and consequently
`countValidLettersOnBoard` of the returned board equals the number of
tiles whose state is `VALID`. -/
theorem validateBoard_no_mixed_and_count (dict : List Char → Bool) (b : Board)
    (hwf : wellFormedTiles b.tiles = true)
    (hnd : (b.tiles.flatten.map Tile.id).Nodup) :
    (∀ r c t, tileAt (validateBoard dict b).1.tiles r c = some t →
        t.state ≠ TileState.MIXED ∧ (t.state = TileState.IDLE ↔ t.letter = none)) ∧
      countValidLettersOnBoard (validateBoard dict b).1 =
        ((validateBoard dict b).1.tiles.flatten.filter
          fun t => t.state == TileState.VALID).length := by
  have hgs := goodStates_validateBoard dict b hwf
  refine ⟨hgs.2, ?_⟩
  have hcount : countValidLettersOnBoard (validateBoard dict b).1 =
      (((validateBoard dict b).1.tiles.flatten.filter
        fun t => t.state == TileState.VALID || t.state == TileState.MIXED).map
          Tile.id).dedup.length := by
    unfold countValidLettersOnBoard countValidTiles
    rw [flatten_filter_map]
  have hfilter : (validateBoard dict b).1.tiles.flatten.filter
      (fun t => t.state == TileState.VALID || t.state == TileState.MIXED) =
        (validateBoard dict b).1.tiles.flatten.filter
          fun t => t.state == TileState.VALID := by
    refine List.filter_congr fun t htmem => ?_
    obtain ⟨r, c, hrc⟩ := mem_flatten_tileAt _ t htmem
    have hmx := (hgs.2 r c t hrc).1
    cases hs : t.state with
    | MIXED => exact absurd hs hmx
    | IDLE => decide
    | VALID => decide
    | INVALID => decide
  have hndout : ((validateBoard dict b).1.tiles.flatten.map Tile.id).Nodup := by
    rw [flatten_map_id_of_core hgs.1]
    exact hnd
  have hndfil : (((validateBoard dict b).1.tiles.flatten.filter
      fun t => t.state == TileState.VALID).map Tile.id).Nodup :=
    List.Nodup.sublist (List.Sublist.map Tile.id (List.filter_sublist _)) hndout
  rw [hcount, hfilter, List.dedup_eq_self.mpr hndfil, List.length_map]

/-- Witness for C10: on the crossing board, no returned tile is `MIXED`
and the valid-letter count matches the number of `VALID` tiles. -/
theorem validateBoard_no_mixed_and_count_witness :
    wellFormedTiles exBoardCross.tiles = true ∧
      (exBoardCross.tiles.flatten.map Tile.id).Nodup ∧
      ((∀ r c t, tileAt (validateBoard exDict exBoardCross).1.tiles r c = some t →
          t.state ≠ TileState.MIXED ∧ (t.state = TileState.IDLE ↔ t.letter = none)) ∧
        countValidLettersOnBoard (validateBoard exDict exBoardCross).1 =
          ((validateBoard exDict exBoardCross).1.tiles.flatten.filter
            fun t => t.state == TileState.VALID).length) :=
  ⟨by decide, by decide,
    validateBoard_no_mixed_and_count exDict exBoardCross (by decide) (by decide)⟩

/-! ## The depth-first traversal: basic properties -/

theorem markTilesDFS_zero (tiles : List (List Tile)) (maxRow maxCol : Nat)
    (vis : List (Nat × Nat)) (p : Nat × Nat) :
    markTilesDFS tiles maxRow maxCol 0 vis p = vis := rfl

theorem markTilesDFS_succ (tiles : List (List Tile)) (maxRow maxCol fuel : Nat)
    (vis : List (Nat × Nat)) (p : Nat × Nat) :
    markTilesDFS tiles maxRow maxCol (fuel + 1) vis p =
      if p ∈ vis then vis
      else
        dfsVisit tiles maxRow maxCol fuel (p.2 < maxCol - 1)
          (dfsVisit tiles maxRow maxCol fuel (p.1 < maxRow - 1)
            (dfsVisit tiles maxRow maxCol fuel (0 < p.2)
              (dfsVisit tiles maxRow maxCol fuel (0 < p.1) (p :: vis) (p.1 - 1, p.2))
              (p.1, p.2 - 1))
            (p.1 + 1, p.2))
          (p.1, p.2 + 1) := rfl

theorem dfs_mono (tiles : List (List Tile)) (maxRow maxCol : Nat) :
    ∀ (fuel : Nat) (vis : List (Nat × Nat)) (p : Nat × Nat),
      vis ⊆ markTilesDFS tiles maxRow maxCol fuel vis p := by
  intro fuel
  induction fuel with
  | zero => intro vis p; exact fun x hx => hx
  | succ fuel ih =>
    intro vis p
    rw [markTilesDFS_succ]
    split
    · exact fun x hx => hx
    · have hstep : ∀ (cond : Prop) (inst : Decidable cond) (v : List (Nat × Nat))
          (q : Nat × Nat), v ⊆ dfsVisit tiles maxRow maxCol fuel cond v q := by
        intro cond inst v q
        unfold dfsVisit
        split
        · exact ih v q
        · exact fun x hx => hx
      intro x hx
      exact hstep _ _ _ _ (hstep _ _ _ _ (hstep _ _ _ _ (hstep _ _ _ _
        (List.mem_cons_of_mem p hx))))

theorem dfs_self_mem (tiles : List (List Tile)) (maxRow maxCol : Nat) (fuel : Nat)
    (vis : List (Nat × Nat)) (p : Nat × Nat) :
    p ∈ markTilesDFS tiles maxRow maxCol (fuel + 1) vis p := by
  rw [markTilesDFS_succ]
  split
  · assumption
  · have hstep : ∀ (cond : Prop) (inst : Decidable cond) (v : List (Nat × Nat))
        (q : Nat × Nat), v ⊆ dfsVisit tiles maxRow maxCol fuel cond v q := by
      intro cond inst v q
      unfold dfsVisit
      split
      · exact dfs_mono tiles maxRow maxCol fuel v q
      · exact fun x hx => hx
    exact hstep _ _ _ _ (hstep _ _ _ _ (hstep _ _ _ _ (hstep _ _ _ _
      (List.mem_cons_self p vis))))

theorem dfs_sound (tiles : List (List Tile)) (maxRow maxCol : Nat) :
    ∀ (fuel : Nat) (vis : List (Nat × Nat)) (p : Nat × Nat) (x : Nat × Nat),
      x ∈ markTilesDFS tiles maxRow maxCol fuel vis p →
      x ∈ vis ∨ ReachableFrom tiles p x := by
  intro fuel
  induction fuel with
  | zero => intro vis p x hx; exact Or.inl hx
  | succ fuel ih =>
    intro vis p x hx
    rw [markTilesDFS_succ] at hx
    by_cases hp : p ∈ vis
    · rw [if_pos hp] at hx
      exact Or.inl hx
    · rw [if_neg hp] at hx
      have hstep : ∀ (cond : Prop) (inst : Decidable cond) (v : List (Nat × Nat))
          (q : Nat × Nat), (cond → Adjacent p q) →
          x ∈ dfsVisit tiles maxRow maxCol fuel cond v q →
          x ∈ v ∨ ReachableFrom tiles p x := by
        intro cond inst v q hadj hxv
        unfold dfsVisit at hxv
        split at hxv
        · rename_i hcond
          rcases ih v q x hxv with h | h
          · exact Or.inl h
          · refine Or.inr (Relation.ReflTransGen.head ⟨hadj hcond.1, hcond.2.1⟩ h)
        · exact Or.inl hxv
      have hadj1 : 0 < p.1 → Adjacent p (p.1 - 1, p.2) := by
        intro h
        right
        refine ⟨rfl, Or.inr ?_⟩
        dsimp only
        omega
      have hadj2 : 0 < p.2 → Adjacent p (p.1, p.2 - 1) := by
        intro h
        left
        refine ⟨rfl, Or.inr ?_⟩
        dsimp only
        omega
      have hadj3 : p.1 < maxRow - 1 → Adjacent p (p.1 + 1, p.2) := by
        intro _
        right
        exact ⟨rfl, Or.inl rfl⟩
      have hadj4 : p.2 < maxCol - 1 → Adjacent p (p.1, p.2 + 1) := by
        intro _
        left
        exact ⟨rfl, Or.inl rfl⟩
      rcases hstep _ _ _ _ hadj4 hx with hx3 | hr
      · rcases hstep _ _ _ _ hadj3 hx3 with hx2 | hr
        · rcases hstep _ _ _ _ hadj2 hx2 with hx1 | hr
          · rcases hstep _ _ _ _ hadj1 hx1 with hx0 | hr
            · rcases List.mem_cons.mp hx0 with hxp | hxvis
              · exact Or.inr (hxp ▸ Relation.ReflTransGen.refl)
              · exact Or.inl hxvis
            · exact Or.inr hr
          · exact Or.inr hr
        · exact Or.inr hr
      · exact Or.inr hr

theorem dfs_range (tiles : List (List Tile)) (maxRow maxCol : Nat) :
    ∀ (fuel : Nat) (vis : List (Nat × Nat)) (p : Nat × Nat),
      (∀ x ∈ vis, x.1 < maxRow ∧ x.2 < maxCol) → p.1 < maxRow → p.2 < maxCol →
      ∀ x ∈ markTilesDFS tiles maxRow maxCol fuel vis p, x.1 < maxRow ∧ x.2 < maxCol := by
  intro fuel
  induction fuel with
  | zero => intro vis p hvis _ _ x hx; exact hvis x hx
  | succ fuel ih =>
    intro vis p hvis hp1 hp2 x hx
    rw [markTilesDFS_succ] at hx
    by_cases hp : p ∈ vis
    · rw [if_pos hp] at hx
      exact hvis x hx
    · rw [if_neg hp] at hx
      have hstep : ∀ (cond : Prop) (inst : Decidable cond) (v : List (Nat × Nat))
          (q : Nat × Nat), (∀ y ∈ v, y.1 < maxRow ∧ y.2 < maxCol) →
          (cond → q.1 < maxRow ∧ q.2 < maxCol) →
          ∀ y ∈ dfsVisit tiles maxRow maxCol fuel cond v q,
            y.1 < maxRow ∧ y.2 < maxCol := by
        intro cond inst v q hv hq y hy
        unfold dfsVisit at hy
        split at hy
        · rename_i hcond
          exact ih v q hv (hq hcond.1).1 (hq hcond.1).2 y hy
        · exact hv y hy
      have hv0 : ∀ y ∈ p :: vis, y.1 < maxRow ∧ y.2 < maxCol := by
        intro y hy
        rcases List.mem_cons.mp hy with h | h
        · subst h; exact ⟨hp1, hp2⟩
        · exact hvis y h
      have h1 := hstep (0 < p.1) inferInstance (p :: vis) (p.1 - 1, p.2) hv0
        fun _ => ⟨by omega, hp2⟩
      have h2 := hstep (0 < p.2) inferInstance _ (p.1, p.2 - 1) h1
        fun _ => ⟨hp1, by omega⟩
      have h3 := hstep (p.1 < maxRow - 1) inferInstance _ (p.1 + 1, p.2) h2
        fun h => ⟨by omega, hp2⟩
      have h4 := hstep (p.2 < maxCol - 1) inferInstance _ (p.1, p.2 + 1) h3
        fun h => ⟨hp1, by omega⟩
      exact h4 x hx

theorem dfs_nodup (tiles : List (List Tile)) (maxRow maxCol : Nat) :
    ∀ (fuel : Nat) (vis : List (Nat × Nat)) (p : Nat × Nat),
      vis.Nodup → (markTilesDFS tiles maxRow maxCol fuel vis p).Nodup := by
  intro fuel
  induction fuel with
  | zero => intro vis p h; exact h
  | succ fuel ih =>
    intro vis p hvis
    rw [markTilesDFS_succ]
    by_cases hp : p ∈ vis
    · rw [if_pos hp]; exact hvis
    · rw [if_neg hp]
      have hstep : ∀ (cond : Prop) (inst : Decidable cond) (v : List (Nat × Nat))
          (q : Nat × Nat), v.Nodup →
          (dfsVisit tiles maxRow maxCol fuel cond v q).Nodup := by
        intro cond inst v q hv
        unfold dfsVisit
        split
        · exact ih v q hv
        · exact hv
      exact hstep _ _ _ _ (hstep _ _ _ _ (hstep _ _ _ _ (hstep _ _ _ _
        (List.nodup_cons.mpr ⟨hp, hvis⟩))))

theorem subset_length_le {α : Type} [DecidableEq α] (a b : List α) (ha : a.Nodup)
    (hs : a ⊆ b) : a.length ≤ b.length := by
  calc a.length = a.toFinset.card := (List.toFinset_card_of_nodup ha).symm
    _ ≤ b.toFinset.card :=
      Finset.card_le_card fun x hx => List.mem_toFinset.mpr (hs (List.mem_toFinset.mp hx))
    _ ≤ b.length := List.toFinset_card_le b

theorem length_le_grid (maxRow maxCol : Nat) (vis : List (Nat × Nat)) (hnd : vis.Nodup)
    (hrange : ∀ x ∈ vis, x.1 < maxRow ∧ x.2 < maxCol) :
    vis.length ≤ maxRow * maxCol := by
  have h1 : vis.toFinset ⊆ Finset.range maxRow ×ˢ Finset.range maxCol := by
    intro x hx
    rw [List.mem_toFinset] at hx
    have := hrange x hx
    rw [Finset.mem_product, Finset.mem_range, Finset.mem_range]
    exact this
  have h2 := Finset.card_le_card h1
  rw [Finset.card_product, Finset.card_range, Finset.card_range] at h2
  rwa [List.toFinset_card_of_nodup hnd] at h2

theorem dfs_self_mem_pos (tiles : List (List Tile)) (maxRow maxCol fuel : Nat)
    (vis : List (Nat × Nat)) (p : Nat × Nat) (hfuel : 1 ≤ fuel) :
    p ∈ markTilesDFS tiles maxRow maxCol fuel vis p := by
  cases fuel with
  | zero => omega
  | succ f => exact dfs_self_mem tiles maxRow maxCol f vis p

/-- With sufficient fuel, the set of newly visited positions is closed
under occupied guarded neighbours: every occupied guarded neighbour of a
newly visited position is visited too. -/
theorem dfs_closed (tiles : List (List Tile)) (maxRow maxCol : Nat) :
    ∀ (fuel : Nat) (vis : List (Nat × Nat)) (p : Nat × Nat),
      vis.Nodup → (∀ x ∈ vis, x.1 < maxRow ∧ x.2 < maxCol) →
      p.1 < maxRow → p.2 < maxCol →
      maxRow * maxCol + 1 ≤ fuel + vis.length →
      ∀ x ∈ markTilesDFS tiles maxRow maxCol fuel vis p, x ∉ vis →
      ∀ q, dfsNbr maxRow maxCol x q → occupiedAt tiles q.1 q.2 = true →
      q ∈ markTilesDFS tiles maxRow maxCol fuel vis p := by
  intro fuel
  induction fuel with
  | zero =>
    intro vis p _ _ _ _ _ x hx hnx q _ _
    exact absurd hx hnx
  | succ fuel ih =>
    intro vis p hnd hrange hp1 hp2 hfuel x hx hnx q hnbr hocc
    rw [markTilesDFS_succ] at hx ⊢
    by_cases hp : p ∈ vis
    · rw [if_pos hp] at hx
      exact absurd hx hnx
    · rw [if_neg hp] at hx ⊢
      have hnd0 : (p :: vis).Nodup := List.nodup_cons.mpr ⟨hp, hnd⟩
      have hr0 : ∀ y ∈ p :: vis, y.1 < maxRow ∧ y.2 < maxCol := by
        intro y hy
        rcases List.mem_cons.mp hy with h | h
        · subst h; exact ⟨hp1, hp2⟩
        · exact hrange y h
      have hlen0 : (p :: vis).length ≤ maxRow * maxCol :=
        length_le_grid maxRow maxCol (p :: vis) hnd0 hr0
      have hfuel1 : 1 ≤ fuel := by
        simp only [List.length_cons] at hlen0
        omega
      have hcnt : ∀ v : List (Nat × Nat), (p :: vis) ⊆ v →
          maxRow * maxCol + 1 ≤ fuel + v.length := by
        intro v hsub
        have h01 : (p :: vis).length ≤ v.length :=
          subset_length_le (p :: vis) v hnd0 hsub
        simp only [List.length_cons] at h01
        omega
      have hstepfacts : ∀ (cond : Prop) (inst : Decidable cond) (v : List (Nat × Nat))
          (nq : Nat × Nat), v.Nodup → (∀ y ∈ v, y.1 < maxRow ∧ y.2 < maxCol) →
          (cond → nq.1 < maxRow ∧ nq.2 < maxCol) →
          maxRow * maxCol + 1 ≤ fuel + v.length →
          (v ⊆ dfsVisit tiles maxRow maxCol fuel cond v nq) ∧
            (dfsVisit tiles maxRow maxCol fuel cond v nq).Nodup ∧
            (∀ y ∈ dfsVisit tiles maxRow maxCol fuel cond v nq,
              y.1 < maxRow ∧ y.2 < maxCol) ∧
            ∀ y ∈ dfsVisit tiles maxRow maxCol fuel cond v nq, y ∉ v →
              ∀ u, dfsNbr maxRow maxCol y u → occupiedAt tiles u.1 u.2 = true →
                u ∈ dfsVisit tiles maxRow maxCol fuel cond v nq := by
        intro cond inst v nq hvnd hvr hnqr hvfuel
        unfold dfsVisit
        split
        · rename_i hcond
          refine ⟨dfs_mono tiles maxRow maxCol fuel v nq,
            dfs_nodup tiles maxRow maxCol fuel v nq hvnd,
            dfs_range tiles maxRow maxCol fuel v nq hvr (hnqr hcond.1).1 (hnqr hcond.1).2,
            fun y hy hny u => ih v nq hvnd hvr (hnqr hcond.1).1 (hnqr hcond.1).2
              hvfuel y hy hny u⟩
        · refine ⟨fun y hy => hy, hvnd, hvr, ?_⟩
          intro y hy hny
          exact absurd hy hny
      obtain ⟨hs1, hnd1, hr1, hc1⟩ := hstepfacts (0 < p.1) inferInstance (p :: vis)
        (p.1 - 1, p.2) hnd0 hr0 (fun _ => ⟨by omega, hp2⟩) (hcnt _ fun y hy => hy)
      set V1 := dfsVisit tiles maxRow maxCol fuel (0 < p.1) (p :: vis) (p.1 - 1, p.2)
        with hV1def
      have hsub1 : (p :: vis) ⊆ V1 := hs1
      obtain ⟨hs2, hnd2, hr2, hc2⟩ := hstepfacts (0 < p.2) inferInstance V1
        (p.1, p.2 - 1) hnd1 hr1 (fun _ => ⟨hp1, by omega⟩) (hcnt _ hsub1)
      set V2 := dfsVisit tiles maxRow maxCol fuel (0 < p.2) V1 (p.1, p.2 - 1) with hV2def
      have hsub2 : (p :: vis) ⊆ V2 := fun y hy => hs2 (hsub1 hy)
      obtain ⟨hs3, hnd3, hr3, hc3⟩ := hstepfacts (p.1 < maxRow - 1) inferInstance V2
        (p.1 + 1, p.2) hnd2 hr2 (fun h => ⟨by omega, hp2⟩) (hcnt _ hsub2)
      set V3 := dfsVisit tiles maxRow maxCol fuel (p.1 < maxRow - 1) V2 (p.1 + 1, p.2)
        with hV3def
      have hsub3 : (p :: vis) ⊆ V3 := fun y hy => hs3 (hsub2 hy)
      obtain ⟨hs4, hnd4, hr4, hc4⟩ := hstepfacts (p.2 < maxCol - 1) inferInstance V3
        (p.1, p.2 + 1) hnd3 hr3 (fun h => ⟨hp1, by omega⟩) (hcnt _ hsub3)
      set V4 := dfsVisit tiles maxRow maxCol fuel (p.2 < maxCol - 1) V3 (p.1, p.2 + 1)
        with hV4def
      by_cases hx3 : x ∈ V3
      · by_cases hx2 : x ∈ V2
        · by_cases hx1 : x ∈ V1
          · by_cases hx0 : x ∈ p :: vis
            · have hxp : x = p := by
                rcases List.mem_cons.mp hx0 with h | h
                · exact h
                · exact absurd h hnx
              subst hxp
              rcases hnbr with ⟨hg, hq⟩ | ⟨hg, hq⟩ | ⟨hg, hq⟩ | ⟨hg, hq⟩
              · subst hq
                by_cases hqin : (x.1 - 1, x.2) ∈ x :: vis
                · exact hs4 (hs3 (hs2 (hs1 hqin)))
                · have hV1eq : V1 = markTilesDFS tiles maxRow maxCol fuel
                      (x :: vis) (x.1 - 1, x.2) := by
                    rw [hV1def]
                    unfold dfsVisit
                    rw [if_pos ⟨hg, hocc, hqin⟩]
                  have hq1 : (x.1 - 1, x.2) ∈ V1 := by
                    rw [hV1eq]
                    exact dfs_self_mem_pos tiles maxRow maxCol fuel _ _ hfuel1
                  exact hs4 (hs3 (hs2 hq1))
              · subst hq
                by_cases hqin : (x.1, x.2 - 1) ∈ V1
                · exact hs4 (hs3 (hs2 hqin))
                · have hV2eq : V2 = markTilesDFS tiles maxRow maxCol fuel
                      V1 (x.1, x.2 - 1) := by
                    rw [hV2def]
                    unfold dfsVisit
                    rw [if_pos ⟨hg, hocc, hqin⟩]
                  have hq2 : (x.1, x.2 - 1) ∈ V2 := by
                    rw [hV2eq]
                    exact dfs_self_mem_pos tiles maxRow maxCol fuel _ _ hfuel1
                  exact hs4 (hs3 hq2)
              · subst hq
                by_cases hqin : (x.1 + 1, x.2) ∈ V2
                · exact hs4 (hs3 hqin)
                · have hV3eq : V3 = markTilesDFS tiles maxRow maxCol fuel
                      V2 (x.1 + 1, x.2) := by
                    rw [hV3def]
                    unfold dfsVisit
                    rw [if_pos ⟨hg, hocc, hqin⟩]
                  have hq3 : (x.1 + 1, x.2) ∈ V3 := by
                    rw [hV3eq]
                    exact dfs_self_mem_pos tiles maxRow maxCol fuel _ _ hfuel1
                  exact hs4 hq3
              · subst hq
                by_cases hqin : (x.1, x.2 + 1) ∈ V3
                · exact hs4 hqin
                · have hV4eq : V4 = markTilesDFS tiles maxRow maxCol fuel
                      V3 (x.1, x.2 + 1) := by
                    rw [hV4def]
                    unfold dfsVisit
                    rw [if_pos ⟨hg, hocc, hqin⟩]
                  rw [hV4eq]
                  exact dfs_self_mem_pos tiles maxRow maxCol fuel _ _ hfuel1
            · exact hs4 (hs3 (hs2 (hc1 x hx1 hx0 q hnbr hocc)))
          · exact hs4 (hs3 (hc2 x hx2 hx1 q hnbr hocc))
        · exact hs4 (hc3 x hx3 hx2 q hnbr hocc)
      · exact hc4 x hx hx3 q hnbr hocc

theorem reach_occ (tiles : List (List Tile)) (s x : Nat × Nat)
    (h : ReachableFrom tiles s x) (hs : occupiedAt tiles s.1 s.2 = true) :
    occupiedAt tiles x.1 x.2 = true := by
  induction h with
  | refl => exact hs
  | tail _ hstep ih => exact hstep.2

theorem adjacent_dfsNbr (tiles : List (List Tile)) (maxRow maxCol : Nat)
    (hOR : ∀ r c, occupiedAt tiles r c = true → r < maxRow ∧ c < maxCol)
    (b c : Nat × Nat) (hadj : Adjacent b c) (hocc : occupiedAt tiles c.1 c.2 = true) :
    dfsNbr maxRow maxCol b c := by
  have hcb := hOR c.1 c.2 hocc
  unfold dfsNbr
  rcases hadj with ⟨h1, h2 | h2⟩ | ⟨h1, h2 | h2⟩
  · -- same row, c is right neighbour
    right; right; right
    refine ⟨by omega, ?_⟩
    have : c = (b.1, b.2 + 1) := by
      obtain ⟨c1, c2⟩ := c
      obtain ⟨b1, b2⟩ := b
      simp only at h1 h2
      simp [h1, ← h2]
    exact this
  · -- same row, c is left neighbour
    right; left
    refine ⟨by omega, ?_⟩
    have : c = (b.1, b.2 - 1) := by
      obtain ⟨c1, c2⟩ := c
      obtain ⟨b1, b2⟩ := b
      simp only at h1 h2
      dsimp only
      simp only [Prod.mk.injEq]
      omega
    exact this
  · -- same column, c is down neighbour
    right; right; left
    refine ⟨by omega, ?_⟩
    have : c = (b.1 + 1, b.2) := by
      obtain ⟨c1, c2⟩ := c
      obtain ⟨b1, b2⟩ := b
      simp only at h1 h2
      simp [h1, ← h2]
    exact this
  · -- same column, c is up neighbour
    left
    refine ⟨by omega, ?_⟩
    have : c = (b.1 - 1, b.2) := by
      obtain ⟨c1, c2⟩ := c
      obtain ⟨b1, b2⟩ := b
      simp only at h1 h2
      dsimp only
      simp only [Prod.mk.injEq]
      omega
    exact this

/-- With sufficient fuel, every occupied position reachable from the
(occupied, in-range) seed is visited. -/
theorem dfs_complete (tiles : List (List Tile)) (maxRow maxCol : Nat)
    (hOR : ∀ r c, occupiedAt tiles r c = true → r < maxRow ∧ c < maxCol)
    (s : Nat × Nat) (hs : occupiedAt tiles s.1 s.2 = true)
    (y : Nat × Nat) (hreach : ReachableFrom tiles s y) :
    y ∈ markTilesDFS tiles maxRow maxCol (maxRow * maxCol + 1) [] s := by
  induction hreach with
  | refl => exact dfs_self_mem tiles maxRow maxCol _ [] s
  | tail hr hstep ih =>
    rename_i b c
    have hbocc : occupiedAt tiles b.1 b.2 = true := reach_occ tiles s b hr hs
    have hbr := hOR b.1 b.2 hbocc
    have hsr := hOR s.1 s.2 hs
    have hnbr : dfsNbr maxRow maxCol b c :=
      adjacent_dfsNbr tiles maxRow maxCol hOR b c hstep.1 hstep.2
    refine dfs_closed tiles maxRow maxCol (maxRow * maxCol + 1) [] s
      List.nodup_nil (by intro x hx; simp at hx) hsr.1 hsr.2 (by simp)
      b ih (by simp) c hnbr hstep.2

/-! ## The island check: counting occupied tiles -/

theorem tileAt_mem (ts : List (List Tile)) (r c : Nat) (t : Tile)
    (h : tileAt ts r c = some t) : t ∈ ts.flatten := by
  unfold tileAt at h
  rw [getD_eq_get?_getD] at h
  cases hg : ts.get? r with
  | none => rw [hg] at h; simp at h
  | some row =>
    rw [hg] at h
    simp only [Option.getD_some] at h
    exact List.mem_flatten.mpr ⟨row, List.get?_mem hg, List.get?_mem h⟩

theorem findAnyTile_position (ts : List (List Tile)) (t : Tile)
    (hwf : wellFormedTiles ts = true) (h : findAnyTile ts = some t) :
    tileAt ts t.row t.col = some t ∧ occupiedAt ts t.row t.col = true := by
  have hmem := List.mem_of_find?_eq_some h
  have hlet := List.find?_some h
  obtain ⟨r, c, hrc⟩ := mem_flatten_tileAt ts t hmem
  obtain ⟨hr, hc⟩ := wellFormed_coords hwf r c t hrc
  subst hr
  subst hc
  refine ⟨hrc, ?_⟩
  unfold occupiedAt
  rw [hrc]
  exact hlet

theorem findAnyTile_none_no_occupied (ts : List (List Tile))
    (h : findAnyTile ts = none) : ∀ r c, occupiedAt ts r c = false := by
  intro r c
  unfold findAnyTile at h
  rw [List.find?_eq_none] at h
  cases hg : tileAt ts r c with
  | none => unfold occupiedAt; rw [hg]
  | some t =>
    have := h t (tileAt_mem ts r c t hg)
    unfold occupiedAt
    rw [hg]
    simpa using this

theorem occ_range_of_wf (ts : List (List Tile)) (hwf : wellFormedTiles ts = true) :
    ∀ r c, occupiedAt ts r c = true → r < ts.length ∧ c < (ts.headD []).length := by
  intro r c h
  have hlt := occupiedAt_lt ts r c h
  refine ⟨hlt.1, ?_⟩
  obtain ⟨row, hrow⟩ : ∃ row, ts.get? r = some row := by
    cases hg : ts.get? r with
    | none =>
      have := List.get?_eq_none.mp hg
      omega
    | some row => exact ⟨row, rfl⟩
  have hrowD : ts.getD r [] = row := by
    rw [getD_eq_get?_getD, hrow]
    rfl
  have hrlen : row.length = ts.length := wellFormed_square hwf row (List.get?_mem hrow)
  obtain ⟨row0, hrow0⟩ : ∃ row0, ts.headD [] = row0 ∧ row0 ∈ ts := by
    cases ts with
    | nil => simp at hlt
    | cons a l => exact ⟨a, rfl, List.mem_cons_self a l⟩
  obtain ⟨hh, hmem0⟩ := hrow0
  have h0len : row0.length = ts.length := wellFormed_square hwf row0 hmem0
  rw [hh, h0len]
  rw [hrowD] at hlt
  omega

theorem filterMap_letter_length (l : List Tile) :
    (l.filterMap Tile.letter).length = (l.filter fun t => t.letter.isSome).length := by
  induction l with
  | nil => rfl
  | cons t ts ih =>
    rw [List.filterMap_cons, List.filter_cons]
    cases hl : t.letter with
    | none => simpa [hl] using ih
    | some u => simpa [hl] using ih

theorem countFilledTiles_eq (ts : List (List Tile))
    (hnd : ((ts.flatten.filterMap Tile.letter).map Letter.id).Nodup) :
    countFilledTiles ts = (ts.flatten.filter fun t => t.letter.isSome).length := by
  unfold countFilledTiles
  have h1 : ((ts.map (List.map Tile.letter)).flatten).filterMap id =
      ts.flatten.filterMap Tile.letter := by
    rw [← List.map_flatten, List.filterMap_map]
    rfl
  rw [h1, List.dedup_eq_self.mpr hnd, List.length_map]
  exact filterMap_letter_length ts.flatten

theorem row_cols_eq_range (ts : List (List Tile)) (hwf : wellFormedTiles ts = true)
    (r : Nat) (row : List Tile) (hrow : ts.get? r = some row) :
    row.map Tile.col = List.range row.length := by
  apply List.ext_get?
  intro i
  rw [List.get?_map]
  by_cases hi : i < row.length
  · obtain ⟨t, ht⟩ : ∃ t, row.get? i = some t := by
      cases hg : row.get? i with
      | none =>
        have := List.get?_eq_none.mp hg
        omega
      | some t => exact ⟨t, rfl⟩
    have htile : tileAt ts r i = some t := by
      unfold tileAt
      rw [getD_eq_get?_getD, hrow]
      exact ht
    have := (wellFormed_coords hwf r i t htile).2
    rw [ht, List.get?_eq_getElem?, List.getElem?_range hi]
    simp [this]
  · rw [List.get?_eq_none.mpr (by omega), List.get?_eq_none.mpr (by simpa using hi)]
    rfl

theorem flatten_nodup_of_wf (ts : List (List Tile)) (hwf : wellFormedTiles ts = true) :
    ts.flatten.Nodup := by
  rw [List.nodup_flatten]
  constructor
  · intro row hrow
    obtain ⟨r, hr⟩ := List.mem_iff_get?.mp hrow
    have := row_cols_eq_range ts hwf r row hr
    refine List.Nodup.of_map Tile.col ?_
    rw [this]
    exact List.nodup_range _
  · rw [List.pairwise_iff_get]
    intro i j hij t hti htj
    have hri : ts.get? i.1 = some (ts.get i) := List.get?_eq_get i.2
    have hrj : ts.get? j.1 = some (ts.get j) := List.get?_eq_get j.2
    obtain ⟨ci, hci⟩ := List.mem_iff_get?.mp hti
    obtain ⟨cj, hcj⟩ := List.mem_iff_get?.mp htj
    have htilei : tileAt ts i.1 ci = some t := by
      unfold tileAt
      rw [getD_eq_get?_getD, hri]
      exact hci
    have htilej : tileAt ts j.1 cj = some t := by
      unfold tileAt
      rw [getD_eq_get?_getD, hrj]
      exact hcj
    have h1 := (wellFormed_coords hwf i.1 ci t htilei).1
    have h2 := (wellFormed_coords hwf j.1 cj t htilej).1
    have : i.1 = j.1 := by omega
    exact absurd this (by omega)

theorem occPos_mem (ts : List (List Tile)) (hwf : wellFormedTiles ts = true)
    (y : Nat × Nat) :
    y ∈ (ts.flatten.filter fun t => t.letter.isSome).map (fun t => (t.row, t.col)) ↔
      occupiedAt ts y.1 y.2 = true := by
  constructor
  · intro hy
    obtain ⟨t, ht, hyeq⟩ := List.mem_map.mp hy
    obtain ⟨hmem, hlet⟩ := List.mem_filter.mp ht
    obtain ⟨r, c, hrc⟩ := mem_flatten_tileAt ts t hmem
    obtain ⟨hr, hc⟩ := wellFormed_coords hwf r c t hrc
    subst hyeq
    rw [hr, hc]
    unfold occupiedAt
    rw [hrc]
    exact hlet
  · intro hy
    unfold occupiedAt at hy
    cases hg : tileAt ts y.1 y.2 with
    | none => rw [hg] at hy; simp at hy
    | some t =>
      rw [hg] at hy
      obtain ⟨hr, hc⟩ := wellFormed_coords hwf y.1 y.2 t hg
      refine List.mem_map.mpr ⟨t, List.mem_filter.mpr ⟨tileAt_mem ts y.1 y.2 t hg, hy⟩, ?_⟩
      rw [hr, hc]

theorem occPos_nodup (ts : List (List Tile)) (hwf : wellFormedTiles ts = true) :
    ((ts.flatten.filter fun t => t.letter.isSome).map fun t => (t.row, t.col)).Nodup := by
  have hbase : (ts.flatten.filter fun t => t.letter.isSome).Nodup :=
    List.Nodup.sublist (List.filter_sublist _) (flatten_nodup_of_wf ts hwf)
  refine List.Nodup.map_on ?_ hbase
  intro x hx y hy hxy
  obtain ⟨rx, cx, hrx⟩ := mem_flatten_tileAt ts x (List.mem_filter.mp hx).1
  obtain ⟨ry, cy, hry⟩ := mem_flatten_tileAt ts y (List.mem_filter.mp hy).1
  obtain ⟨hxr, hxc⟩ := wellFormed_coords hwf rx cx x hrx
  obtain ⟨hyr, hyc⟩ := wellFormed_coords hwf ry cy y hry
  have hco : (x.row, x.col) = (y.row, y.col) := hxy
  rw [Prod.mk.injEq] at hco
  have hreq : rx = ry := by omega
  have hceq : cx = cy := by omega
  subst hreq
  subst hceq
  rw [hrx] at hry
  injection hry

theorem nodup_subset_len_eq_mem {α : Type} [DecidableEq α] (a b : List α)
    (hna : a.Nodup) (hnb : b.Nodup) (hs : a ⊆ b) (hl : b.length ≤ a.length) :
    ∀ y ∈ b, y ∈ a := by
  have hfs : a.toFinset ⊆ b.toFinset := fun x hx =>
    List.mem_toFinset.mpr (hs (List.mem_toFinset.mp hx))
  have hcard : b.toFinset.card ≤ a.toFinset.card := by
    rw [List.toFinset_card_of_nodup hna, List.toFinset_card_of_nodup hnb]
    exact hl
  have heq : a.toFinset = b.toFinset := Finset.eq_of_subset_of_card_le hfs hcard
  intro y hy
  have : y ∈ a.toFinset := by
    rw [heq]
    exact List.mem_toFinset.mpr hy
  exact List.mem_toFinset.mp this

theorem validateWordIsland_eq_none (b : Board) (h : findAnyTile b.tiles = none) :
    validateWordIsland b = false := by
  unfold validateWordIsland
  dsimp only
  rw [h]

theorem validateWordIsland_eq_some (b : Board) (t : Tile)
    (h : findAnyTile b.tiles = some t) :
    validateWordIsland b =
      ((markTilesDFS b.tiles b.tiles.length (b.tiles.headD []).length
          (b.tiles.length * (b.tiles.headD []).length + 1) [] (t.row, t.col)).length ==
        countFilledTiles b.tiles) := by
  unfold validateWordIsland
  dsimp only
  rw [h]

/-! ## C2: the island check decides connectivity -/

/-- C2: on a well-formed board where each letter is referenced by at most
one tile (distinct letter ids), `validateWordIsland` returns `true` iff
the board has at least one occupied tile (`findAnyTile` succeeds, with
the first occupied tile in row-major order) and every occupied position
is reachable from that tile through 4-directionally adjacent occupied
tiles; in particular it returns `false` for an empty board and `false`
whenever the occupied tiles form two or more disjoint groups. -/
theorem validateWordIsland_iff_connected (b : Board)
    (hwf : wellFormedTiles b.tiles = true)
    (hnd : ((b.tiles.flatten.filterMap Tile.letter).map Letter.id).Nodup) :
    validateWordIsland b = true ↔
      ∃ t, findAnyTile b.tiles = some t ∧
        ∀ p : Nat × Nat, occupiedAt b.tiles p.1 p.2 = true →
          ReachableFrom b.tiles (t.row, t.col) p := by
  cases hfind : findAnyTile b.tiles with
  | none =>
    rw [validateWordIsland_eq_none b hfind]
    constructor
    · intro h
      exact absurd h (by simp)
    · rintro ⟨t, ht, _⟩
      exact Option.noConfusion ht
  | some t =>
    rw [validateWordIsland_eq_some b t hfind]
    obtain ⟨htpos, htocc⟩ := findAnyTile_position b.tiles t hwf hfind
    have hOR := occ_range_of_wf b.tiles hwf
    have hsr := hOR t.row t.col htocc
    have hVnd : (markTilesDFS b.tiles b.tiles.length (b.tiles.headD []).length
        (b.tiles.length * (b.tiles.headD []).length + 1) [] (t.row, t.col)).Nodup :=
      dfs_nodup _ _ _ _ [] _ List.nodup_nil
    have hVsound : ∀ x ∈ markTilesDFS b.tiles b.tiles.length (b.tiles.headD []).length
        (b.tiles.length * (b.tiles.headD []).length + 1) [] (t.row, t.col),
        ReachableFrom b.tiles (t.row, t.col) x := by
      intro x hx
      rcases dfs_sound _ _ _ _ [] _ x hx with h | h
      · simp at h
      · exact h
    have hVocc : ∀ x ∈ markTilesDFS b.tiles b.tiles.length (b.tiles.headD []).length
        (b.tiles.length * (b.tiles.headD []).length + 1) [] (t.row, t.col),
        occupiedAt b.tiles x.1 x.2 = true := fun x hx =>
      reach_occ b.tiles (t.row, t.col) x (hVsound x hx) htocc
    have hOccLnd := occPos_nodup b.tiles hwf
    have hVsub : markTilesDFS b.tiles b.tiles.length (b.tiles.headD []).length
        (b.tiles.length * (b.tiles.headD []).length + 1) [] (t.row, t.col) ⊆
          (b.tiles.flatten.filter fun u => u.letter.isSome).map fun u => (u.row, u.col) :=
      fun x hx => (occPos_mem b.tiles hwf x).mpr (hVocc x hx)
    have htotal : countFilledTiles b.tiles =
        ((b.tiles.flatten.filter fun u => u.letter.isSome).map
          fun u => (u.row, u.col)).length := by
      rw [countFilledTiles_eq b.tiles hnd, List.length_map]
    rw [htotal, beq_iff_eq]
    constructor
    · intro hlen
      refine ⟨t, rfl, ?_⟩
      intro p hp
      have hsup := nodup_subset_len_eq_mem _ _ hVnd hOccLnd hVsub (by omega)
      exact hVsound p (hsup p ((occPos_mem b.tiles hwf p).mpr hp))
    · rintro ⟨t', ht', hreach⟩
      injection ht' with hteq
      subst hteq
      have hsubOcc : ((b.tiles.flatten.filter fun u => u.letter.isSome).map
          fun u => (u.row, u.col)) ⊆
            markTilesDFS b.tiles b.tiles.length (b.tiles.headD []).length
              (b.tiles.length * (b.tiles.headD []).length + 1) [] (t.row, t.col) := by
        intro y hy
        have hyocc := (occPos_mem b.tiles hwf y).mp hy
        exact dfs_complete b.tiles _ _ hOR (t.row, t.col) htocc y (hreach y hyocc)
      have hle1 := subset_length_le _ _ hVnd hVsub
      have hle2 := subset_length_le _ _ hOccLnd hsubOcc
      omega

/-- Witness for C2: the "cat" board is well formed with distinct letter
ids, and the connectivity characterisation applies to it. -/
theorem validateWordIsland_iff_connected_witness :
    wellFormedTiles exBoardCat.tiles = true ∧
      ((exBoardCat.tiles.flatten.filterMap Tile.letter).map Letter.id).Nodup ∧
      (validateWordIsland exBoardCat = true ↔
        ∃ t, findAnyTile exBoardCat.tiles = some t ∧
          ∀ p : Nat × Nat, occupiedAt exBoardCat.tiles p.1 p.2 = true →
            ReachableFrom exBoardCat.tiles (t.row, t.col) p) :=
  ⟨by decide, by decide, validateWordIsland_iff_connected exBoardCat (by decide) (by decide)⟩
